import Mathlib

/-!
Hyperion SDK mails: frame codec, streaming decoder, emitters and container detection.

A shallow embedding of `pkg/mail/mail.go`, `pkg/ipc/ipc.go` and
`pkg/container/container.go`.

Modelling conventions.

* A byte is a `Fin 256`; a `[]byte` is the list of its visible elements, and a slice
  expression is checked against that length (a byte slice is taken to have no spare
  capacity behind its length).
* `uint64` values are natural numbers reduced modulo `2 ^ 64` where the source converts
  or stores them; `int` values are integers wrapped to 64 bits where the source adds them.
* Methods with a pointer receiver return a run record: the state of the mail when the
  call ended together with the way it ended (normal return, returned error, run-time
  panic), so that the fields already written when a panic strikes stay visible.
* An `io.Reader` is the script of the results of its successive `Read` calls; an
  `io.Writer` is a state machine that answers each `Write` call.  Loops that the source
  leaves unbounded are driven by the script or by an explicit number of iterations, and a
  run that would need more than it was given ends as `pending`.
* A Go string is the list of its bytes.  The files of the process file system that the
  container functions read are parameters: the bytes read, or `none` when the read fails.
-/

namespace Hyperion

/-! ## Data model -/

/-- A byte, Go's `uint8`. -/
abbrev Byte := Fin 256

/-- The type tag of a mail: an alias of `uint8`. -/
abbrev MailType := Byte

/-- Tag of a log mail. -/
def LOG : MailType := 0

/-- Tag of a data mail. -/
def DATA : MailType := 1

/-- Size in bytes of the type field of a frame. -/
def mailTypeSize : Nat := 1

/-- Size in bytes of the payload-size field of a frame. -/
def mailPayloadSize : Nat := 8

/-- The mail struct: `typ`, `size` (a `uint64`) and `data`. -/
structure Mail where
  typ : MailType
  size : Nat
  data : List Byte
deriving DecidableEq, Repr

/-- The zero value `Mail{}`. -/
def Mail.zero : Mail := { typ := 0, size := 0, data := [] }

/-- Conversion of a non-negative integer to `uint64`. -/
def toUint64 (n : Nat) : Nat := n % 2 ^ 64

/-- Conversion of a `uint64` to a 64-bit `int` (two's complement). -/
def toInt (n : Nat) : Int :=
  if n % 2 ^ 64 < 2 ^ 63 then ((n % 2 ^ 64 : Nat) : Int) else ((n % 2 ^ 64 : Nat) : Int) - 2 ^ 64

/-- Wrap-around of a 64-bit `int` result. -/
def wrapInt (z : Int) : Int := (z + 2 ^ 63) % 2 ^ 64 - 2 ^ 63

/-- Conversion of an integer to a byte: the low eight bits. -/
def toByte (v : Nat) : Byte := ⟨v % 256, Nat.mod_lt _ (by decide)⟩

/-- Run-time panics raised by indexing and slicing. -/
inductive Panic where
  | indexOutOfRange
  | sliceBoundsOutOfRange
deriving DecidableEq, Repr

/-- An error value handed back by a reader or a writer, identified by a code. -/
structure StreamError where
  code : Nat
deriving DecidableEq, Repr

/-- The slice expression `s[low:high]`; `none` stands for the bounds panic. -/
def slice (s : List Byte) (low high : Nat) : Option (List Byte) :=
  if low ≤ high ∧ high ≤ s.length then some ((s.take high).drop low) else none

/-- The function `binary.LittleEndian.PutUint64` applied to a fresh 8-byte slice. -/
def PutUint64 (v : Nat) : List Byte :=
  [toByte v, toByte (v / 2 ^ 8), toByte (v / 2 ^ 16), toByte (v / 2 ^ 24),
   toByte (v / 2 ^ 32), toByte (v / 2 ^ 40), toByte (v / 2 ^ 48), toByte (v / 2 ^ 56)]

/-- The function `binary.LittleEndian.Uint64`; its callers pass 8-byte slices, so the
bounds check on `b[7]` is not represented (a missing byte reads as zero). -/
def Uint64 (b : List Byte) : Nat :=
  (b.getD 0 0).val + (b.getD 1 0).val * 2 ^ 8 + (b.getD 2 0).val * 2 ^ 16
    + (b.getD 3 0).val * 2 ^ 24 + (b.getD 4 0).val * 2 ^ 32 + (b.getD 5 0).val * 2 ^ 40
    + (b.getD 6 0).val * 2 ^ 48 + (b.getD 7 0).val * 2 ^ 56

/-! ## Construction and accessors -/

/-- The constructor `New`. -/
def New (typ : MailType) (data : List Byte) : Mail :=
  { typ := typ, data := data, size := toUint64 data.length }

/-- The method `GetType`. -/
def Mail.GetType (m : Mail) : MailType := m.typ

/-- The method `SetType`. -/
def Mail.SetType (m : Mail) (typ : MailType) : Mail := { m with typ := typ }

/-- The method `GetSize`, which returns the `typ` field. -/
def Mail.GetSize (m : Mail) : MailType := m.typ

/-- The method `GetData`. -/
def Mail.GetData (m : Mail) : List Byte := m.data

/-- The method `SetData`: stores the data and its length. -/
def Mail.SetData (m : Mail) (data : List Byte) : Mail :=
  { m with size := toUint64 data.length, data := data }

/-! ## Frame codec -/

/-- The method `Encode`: type byte, size as 8 little-endian bytes, then the data. -/
def Mail.Encode (m : Mail) : List Byte :=
  let byt : List Byte := [] ++ [m.typ]
  let sbyt := PutUint64 m.size
  let byt := byt ++ sbyt
  byt ++ m.data

/-- The outcome of a `Decode` call: the mail as the call left it and the panic, if any. -/
structure DecodeRun where
  mail : Mail
  panic : Option Panic
deriving DecidableEq, Repr

/-- The method `Decode`: `typ` from `byt[0]`, `size` from `byt[1:9]`, `data` from
`byt[9:size]`. -/
def Mail.Decode (m : Mail) (byt : List Byte) : DecodeRun :=
  match byt with
  | [] => { mail := m, panic := some Panic.indexOutOfRange }
  | b0 :: _ =>
    let m1 := { m with typ := b0 }
    match slice byt mailTypeSize (mailTypeSize + mailPayloadSize) with
    | none => { mail := m1, panic := some Panic.sliceBoundsOutOfRange }
    | some size =>
      let m2 := { m1 with size := Uint64 size }
      match slice byt (mailTypeSize + mailPayloadSize) m2.size with
      | none => { mail := m2, panic := some Panic.sliceBoundsOutOfRange }
      | some d => { mail := { m2 with data := d }, panic := none }

/-! ## Streaming decoder -/

/-- The result of one `Read` call on the 128-byte buffer: `bytes` is `buffer[:n]` as the
call left it (so `n = bytes.length`) and `err` the error it returned. -/
structure ReadResult where
  bytes : List Byte
  err : Option StreamError
deriving DecidableEq, Repr

/-- A successful `Read` that delivers the given chunk. -/
def ReadResult.chunk (c : List Byte) : ReadResult := { bytes := c, err := none }

/-- How a call ended: it returned (with an error or `nil`), it panicked, or the run was
cut before the call ended. -/
inductive Outcome where
  | returned (err : Option StreamError)
  | panicked (p : Panic)
  | pending
deriving DecidableEq, Repr

/-- The outcome of a `DecodeFrom` call: the mail as the call left it, how the call ended
and the `Read` results the call did not ask for. -/
structure DecodeFromRun where
  mail : Mail
  outcome : Outcome
  rest : List ReadResult
deriving DecidableEq, Repr

/-- Length of the read buffer of `DecodeFrom`. -/
def bufferSize : Nat := 128

/-- The read loop of `DecodeFrom`, from the state (`m`, `data`) at the top of an
iteration, against the script of the remaining `Read` results. -/
def DecodeFromLoop (m : Mail) (data : List Byte) : List ReadResult → DecodeFromRun
  | [] => { mail := m, outcome := Outcome.pending, rest := [] }
  | r :: rest =>
    match r.err with
    | some e => { mail := m, outcome := Outcome.returned (some e), rest := rest }
    | none =>
      let n := r.bytes.length
      if n = 0 then { mail := m, outcome := Outcome.returned none, rest := rest }
      else if bufferSize < n then
        { mail := m, outcome := Outcome.panicked Panic.sliceBoundsOutOfRange, rest := rest }
      else
        let data := data ++ r.bytes
        match data with
        | [] => { mail := m, outcome := Outcome.panicked Panic.indexOutOfRange, rest := rest }
        | b0 :: _ =>
          let m := { m with typ := b0 }
          if (n : Int) < wrapInt ((mailTypeSize : Int) + (mailPayloadSize : Int)) then
            DecodeFromLoop m data rest
          else
            match slice data mailTypeSize (mailTypeSize + mailPayloadSize) with
            | none =>
              { mail := m, outcome := Outcome.panicked Panic.sliceBoundsOutOfRange, rest := rest }
            | some size =>
              let m := { m with size := Uint64 size }
              if (n : Int) < wrapInt (wrapInt (toInt m.size + (mailTypeSize : Int))
                  + (mailPayloadSize : Int)) then
                DecodeFromLoop m data rest
              else
                match slice data (mailTypeSize + mailPayloadSize) m.size with
                | none =>
                  { mail := m, outcome := Outcome.panicked Panic.sliceBoundsOutOfRange,
                    rest := rest }
                | some d =>
                  { mail := { m with data := m.data ++ d }, outcome := Outcome.returned none,
                    rest := rest }

/-- The method `DecodeFrom`: the read loop started with an empty `data`. -/
def Mail.DecodeFrom (m : Mail) (src : List ReadResult) : DecodeFromRun :=
  DecodeFromLoop m [] src

/-! ## Writing a mail -/

/-- The result of one `Write` call: the count `n` and the error. -/
structure WriteResult where
  n : Nat
  err : Option StreamError
deriving DecidableEq, Repr

/-- An `io.Writer`: from its state and the slice it is given, the result and its next
state. -/
structure Writer (σ : Type) where
  write : σ → List Byte → WriteResult × σ

/-- One `Write` call as `EncodeTo` made it: the slice passed and the result received. -/
structure WriteCall where
  p : List Byte
  result : WriteResult
deriving DecidableEq, Repr

/-- The bytes a `Write` call accepted: the first `n` bytes of its slice. -/
def WriteCall.accepted (c : WriteCall) : List Byte := c.p.take c.result.n

/-- The bytes accepted over a sequence of `Write` calls, in call order. -/
def acceptedBytes (calls : List WriteCall) : List Byte :=
  (calls.map WriteCall.accepted).flatten

/-- The outcome of an `EncodeTo` call: how it ended, the writer's state and the `Write`
calls made, in order. -/
structure EncodeToRun (σ : Type) where
  outcome : Outcome
  state : σ
  calls : List WriteCall

/-- The write loop of `EncodeTo`, from `written` bytes on, for at most `fuel`
iterations. -/
def EncodeToLoop {σ : Type} (dst : Writer σ) (data : List Byte) :
    Nat → σ → Nat → List WriteCall → EncodeToRun σ
  | 0, s, _, calls => { outcome := Outcome.pending, state := s, calls := calls }
  | fuel + 1, s, written, calls =>
    if written ≤ data.length then
      let p := data.drop written
      let r := dst.write s p
      let calls := calls ++ [{ p := p, result := r.1 }]
      match r.1.err with
      | some e => { outcome := Outcome.returned (some e), state := r.2, calls := calls }
      | none =>
        let written := written + r.1.n
        if written = data.length then
          { outcome := Outcome.returned none, state := r.2, calls := calls }
        else EncodeToLoop dst data fuel r.2 written calls
    else { outcome := Outcome.panicked Panic.sliceBoundsOutOfRange, state := s, calls := calls }

/-- The method `EncodeTo`: encode the mail, then write until all of it is written. -/
def Mail.EncodeTo {σ : Type} (m : Mail) (dst : Writer σ) (s : σ) (fuel : Nat) : EncodeToRun σ :=
  let data := m.Encode
  EncodeToLoop dst data fuel s 0 []

/-! ## Emitters -/

/-- How a call of a function without results ended. -/
inductive EmitOutcome where
  | returned
  | panicked (p : Panic)
  | pending
deriving DecidableEq, Repr

/-- What is left of the error result of `EncodeTo` in a caller that drops it. -/
def Outcome.dropResult : Outcome → EmitOutcome
  | Outcome.returned _ => EmitOutcome.returned
  | Outcome.panicked p => EmitOutcome.panicked p
  | Outcome.pending => EmitOutcome.pending

/-- The outcome of `Logf` or `SendData`: how the call ended (these functions have no
result), the state of standard output and the `Write` calls made on it. -/
structure EmitRun (σ : Type) where
  outcome : EmitOutcome
  state : σ
  calls : List WriteCall

/-- The function `SendData`, with standard output as the writer `stdout` in state `s`. -/
def SendData {σ : Type} (stdout : Writer σ) (s : σ) (fuel : Nat) (data : List Byte) : EmitRun σ :=
  let r := (New DATA data).EncodeTo stdout s fuel
  { outcome := r.outcome.dropResult, state := r.state, calls := r.calls }

/-- The function `Logf`; `sprintf` stands for `fmt.Sprintf` followed by the conversion of
the message to bytes. -/
def Logf {σ F A : Type} (sprintf : F → A → List Byte) (stdout : Writer σ) (s : σ) (fuel : Nat)
    (format : F) (args : A) : EmitRun σ :=
  let msg := sprintf format args
  let r := (New LOG msg).EncodeTo stdout s fuel
  { outcome := r.outcome.dropResult, state := r.state, calls := r.calls }

/-! ## Container detection (`pkg/container`) -/

/-- The bytes of an ASCII string literal. -/
def ascii (s : String) : List Byte := s.toList.map (fun c => toByte c.toNat)

/-- The function `strings.Contains`: `substr` occurs somewhere in `s`. -/
def Contains (s substr : List Byte) : Bool :=
  match s with
  | [] => substr.isEmpty
  | b :: t => substr.isPrefixOf (b :: t) || Contains t substr

/-- The function `strings.Split` for a separator `sep` of one byte (both calls of the
source pass one): the pieces of `s` between the separators, at least one piece. -/
def Split (s : List Byte) (sep : Byte) : List (List Byte) :=
  match s with
  | [] => [[]]
  | b :: t =>
    if b = sep then [] :: Split t sep
    else
      match Split t sep with
      | [] => [[b]]
      | seg :: segs => (b :: seg) :: segs

/-- The function `strings.Trim`: leading and trailing bytes of `cutset` removed. -/
def Trim (s cutset : List Byte) : List Byte :=
  ((s.dropWhile (fun b => cutset.contains b)).reverse.dropWhile
    (fun b => cutset.contains b)).reverse

/-- The errors made with `fmt.Errorf` in the package, each carrying the process id. -/
inductive ContainerError where
  | readEnviron (pid : Int)
  | readCgroups (pid : Int)
  | noContainerID (pid : Int)
deriving DecidableEq, Repr

/-- The environment variable names looked for by `ProcessIsContainer`. -/
def containerMarkers : List (List Byte) :=
  [ascii "KUBERNETES_SERVICE_HOST", ascii "POD_NAME", ascii "HYPERION_ENABLED"]

/-- The function `ProcessIsContainer`; `environ` is the result of reading the `environ`
file of the process (`none` when the read fails). -/
def ProcessIsContainer (pid : Int) (environ : Option (List Byte)) :
    Bool × Option ContainerError :=
  match environ with
  | none => (false, some (ContainerError.readEnviron pid))
  | some environ =>
    let vars := Split environ 0
    if vars.any (fun env =>
        Contains env (ascii "KUBERNETES_SERVICE_HOST") ||
        Contains env (ascii "POD_NAME") ||
        Contains env (ascii "HYPERION_ENABLED")) then (true, none)
    else (false, none)

/-- The function `GetContainerID`; `environ` and `cgroup` are the results of reading the
two files of the process (`none` when a read fails). -/
def GetContainerID (pid : Int) (environ cgroup : Option (List Byte)) :
    List Byte × Bool × Option ContainerError :=
  let r := ProcessIsContainer pid environ
  if r.2.isSome || !r.1 then ([], false, r.2)
  else
    match cgroup with
    | none => ([], false, some (ContainerError.readCgroups pid))
    | some cgroup =>
      let splitted := Split cgroup (toByte 47)
      if splitted.length = 0 then ([], false, some (ContainerError.noContainerID pid))
      else
        let id := Trim (splitted.getD (splitted.length - 1) []) (ascii " \n")
        (id, true, none)

/-! ## Writers used as concrete inputs -/

/-- A writer without state that accepts at most two bytes per call. -/
def twoByteWriter : Writer Unit :=
  { write := fun s p => ({ n := min 2 p.length, err := none }, s) }

/-- A writer without state that accepts the whole slice at every call. -/
def wholeWriter : Writer Unit :=
  { write := fun s p => ({ n := p.length, err := none }, s) }

/-- A writer without state whose every call fails with error 5 and writes nothing. -/
def failingWriter : Writer Unit :=
  { write := fun s _ => ({ n := 0, err := some { code := 5 } }, s) }

/-- A stand-in for `fmt.Sprintf` on byte strings: the format followed by the argument. -/
def concatSprintf (format args : List Byte) : List Byte := format ++ args

/-! ## Little-endian size field -/

theorem toByte_val (v : Nat) : (toByte v).val = v % 256 := rfl

theorem PutUint64_length (v : Nat) : (PutUint64 v).length = 8 := rfl

/-- Reading back the eight bytes written for `v` gives `v` as a `uint64`. -/
theorem Uint64_PutUint64 (v : Nat) : Uint64 (PutUint64 v) = v % 2 ^ 64 := by
  simp only [Uint64, PutUint64, List.getD_cons_zero, List.getD_cons_succ, toByte_val]
  omega

theorem toUint64_of_lt {n : Nat} (h : n < 2 ^ 64) : toUint64 n = n := Nat.mod_eq_of_lt h

theorem toUint64_le (n : Nat) : toUint64 n ≤ n := Nat.mod_le _ _

theorem Encode_eq (m : Mail) : m.Encode = m.typ :: (PutUint64 m.size ++ m.data) := by
  simp [Mail.Encode]

theorem Encode_length (m : Mail) : m.Encode.length = 9 + m.data.length := by
  simp [Encode_eq, PutUint64_length]; omega

/-! ## Frame codec: `Encode` and `Decode` -/

/-- The slice `byt[1:9]` of an encoding holds the eight bytes written for the size. -/
theorem slice_header_Encode (m : Mail) (t : List Byte) :
    slice (m.Encode ++ t) mailTypeSize (mailTypeSize + mailPayloadSize) = some (PutUint64 m.size) := by
  have hlen : 9 ≤ (m.Encode ++ t).length := by
    rw [List.length_append, Encode_length]; omega
  simp only [slice, mailTypeSize, mailPayloadSize]
  rw [if_pos ⟨by omega, hlen⟩]
  simp [Encode_eq, PutUint64]

/-- The steps of `Decode` on a non-empty buffer whose slice `[1:9]` exists. -/
theorem Decode_of_header (m0 : Mail) (byt tl sz : List Byte) (b0 : Byte) (hb : byt = b0 :: tl)
    (hs : slice byt mailTypeSize (mailTypeSize + mailPayloadSize) = some sz) :
    m0.Decode byt =
      match slice byt (mailTypeSize + mailPayloadSize) (Uint64 sz) with
      | none => { mail := { typ := b0, size := Uint64 sz, data := m0.data },
                  panic := some Panic.sliceBoundsOutOfRange }
      | some d => { mail := { typ := b0, size := Uint64 sz, data := d }, panic := none } := by
  subst hb
  simp only [Mail.Decode, hs]

/-- What `Decode` does on the encoding of a mail followed by any bytes: the type and the
size are read back, and the data is the slice `[9:size]` of the input. -/
theorem Decode_Encode_append (m0 m : Mail) (t : List Byte) :
    m0.Decode (m.Encode ++ t) =
      match slice (m.Encode ++ t) 9 (m.size % 2 ^ 64) with
      | none => { mail := { typ := m.typ, size := m.size % 2 ^ 64, data := m0.data },
                  panic := some Panic.sliceBoundsOutOfRange }
      | some d => { mail := { typ := m.typ, size := m.size % 2 ^ 64, data := d }, panic := none } := by
  have hb : m.Encode ++ t = m.typ :: (PutUint64 m.size ++ m.data ++ t) := by
    simp [Encode_eq]
  rw [Decode_of_header m0 _ _ _ m.typ hb (slice_header_Encode m t), Uint64_PutUint64]
  rfl

/-- C1, defect in the code. Round trip through `Encode` and `Decode` does not hold in the code:
for every mail built by `New`, `Decode` applied to its encoding either panics or stores
a payload at least nine bytes shorter than the original, because the payload is sliced
as `byt[9:size]`; for `New(LOG, "hi")` it panics with type and size set and no data. -/
theorem C1_roundtrip_never_holds :
    (∀ (m0 : Mail) (typ : MailType) (data : List Byte),
      (m0.Decode (New typ data).Encode).panic = some Panic.sliceBoundsOutOfRange ∨
      ((m0.Decode (New typ data).Encode).panic = none ∧
        (m0.Decode (New typ data).Encode).mail.data.length + 9 ≤ data.length)) ∧
    Mail.zero.Decode (New LOG [0x68, 0x69]).Encode =
      { mail := { typ := LOG, size := 2, data := [] },
        panic := some Panic.sliceBoundsOutOfRange } := by
  refine ⟨?_, by decide⟩
  intro m0 typ data
  have h := Decode_Encode_append m0 (New typ data) []
  rw [List.append_nil] at h
  rw [h]
  cases hs : slice (New typ data).Encode 9 ((New typ data).size % 2 ^ 64) with
  | none => left; rfl
  | some d =>
    right
    refine ⟨rfl, ?_⟩
    simp only [slice] at hs
    split at hs
    · rename_i hb
      simp only [Option.some.injEq] at hs
      subst hs
      simp only [List.length_drop, List.length_take, Encode_length]
      have h1 : (New typ data).size % 2 ^ 64 ≤ data.length := by
        simp only [New, toUint64]
        exact le_trans (Nat.mod_le _ _) (Nat.mod_le _ _)
      have h2 : (New typ data).data.length = data.length := rfl
      omega
    · exact absurd hs (by simp)

/-- C2. Wire layout of `Encode` for a mail built by `New`: `9 + len(data)` bytes, byte 0
the type, bytes 1..8 the length of the data as an unsigned 64-bit little-endian integer
(byte `1 + i` is the `i`-th base-256 digit, and reading the eight bytes back gives the
length), bytes 9 and on the data; and the encoding of `New(LOG, "hi")`. -/
theorem C2_encode_layout (typ : MailType) (data : List Byte) (hlen : data.length < 2 ^ 64) :
    (New typ data).Encode.length = 9 + data.length ∧
    (New typ data).Encode[0]? = some typ ∧
    (∀ i, i < 8 → (New typ data).Encode[1 + i]? = some (toByte (data.length / 256 ^ i))) ∧
    Uint64 (((New typ data).Encode.drop 1).take 8) = data.length ∧
    (New typ data).Encode.drop 9 = data ∧
    (New LOG [0x68, 0x69]).Encode = [0x00, 0x02, 0, 0, 0, 0, 0, 0, 0, 0x68, 0x69] := by
  have hsz : (New typ data).size = data.length := toUint64_of_lt hlen
  refine ⟨Encode_length _, ?_, ?_, ?_, ?_, by decide⟩
  · simp [Encode_eq, New]
  · intro i hi
    rw [Encode_eq, hsz]
    interval_cases i <;> simp [PutUint64]
  · rw [Encode_eq, hsz]
    have : ((New typ data).typ :: (PutUint64 data.length ++ (New typ data).data)).drop 1
        = PutUint64 data.length ++ (New typ data).data := rfl
    rw [this, List.take_left' (PutUint64_length _), Uint64_PutUint64]
    exact Nat.mod_eq_of_lt hlen
  · rw [Encode_eq]
    simp [PutUint64, New]

/-- Witness for C2: the layout at a one-byte payload. -/
theorem C2_encode_layout_witness :
    (New DATA [0x2a]).Encode.length = 9 + 1 ∧
    (New DATA [0x2a]).Encode.drop 9 = [0x2a] :=
  have h := C2_encode_layout DATA [0x2a] (by decide)
  ⟨h.1, h.2.2.2.2.1⟩

/-- C3, defect in the code. The payload offset rule does not hold in the code: `Decode` slices
`byt[9:L]`, with the declared length `L` as an absolute end index.  On the 11 bytes of
the frame of `"hi"` it panics (`9 > 2`); on a complete 19-byte frame that declares ten
payload bytes it stores the single byte at offset 9. -/
theorem C3_decode_slices_to_absolute_length :
    Mail.zero.Decode [0x00, 0x02, 0, 0, 0, 0, 0, 0, 0, 0x68, 0x69] =
      { mail := { typ := LOG, size := 2, data := [] },
        panic := some Panic.sliceBoundsOutOfRange } ∧
    Mail.zero.Decode [0x01, 0x0a, 0, 0, 0, 0, 0, 0, 0, 10, 11, 12, 13, 14, 15, 16, 17, 18, 19] =
      { mail := { typ := DATA, size := 10, data := [10] }, panic := none } := by
  constructor <;> decide

/-- C5, defect in the code. The length invariant is broken by `Decode`: starting from
`New(LOG, "")` and decoding a complete frame with a ten-byte payload, the call returns
normally with `size = 10` and one byte of data. -/
theorem C5_decode_breaks_length_invariant :
    ((New LOG []).Decode (New DATA [0, 1, 2, 3, 4, 5, 6, 7, 8, 9]).Encode).panic = none ∧
    ((New LOG []).Decode (New DATA [0, 1, 2, 3, 4, 5, 6, 7, 8, 9]).Encode).mail.size = 10 ∧
    ((New LOG []).Decode (New DATA [0, 1, 2, 3, 4, 5, 6, 7, 8, 9]).Encode).mail.data.length = 1 := by
  decide

/-- The length invariant on the paths that keep it: `New`, `SetData` and `SetType`. -/
theorem length_invariant_New_SetData_SetType (typ typ1 : MailType) (data d : List Byte) :
    (New typ data).size = toUint64 (New typ data).data.length ∧
    (∀ m : Mail, (m.SetData d).size = toUint64 (m.SetData d).data.length) ∧
    (∀ m : Mail, m.size = toUint64 m.data.length →
      (m.SetType typ1).size = toUint64 (m.SetType typ1).data.length) :=
  ⟨rfl, fun _ => rfl, fun _ h => h⟩

/-- C6, defect in the code. A truncated buffer is not always rejected by `Decode`: on 18 bytes
whose header declares ten payload bytes (19 would be a complete frame) the call returns
normally, with a one-byte payload. -/
theorem C6_decode_accepts_truncated_frame :
    Mail.zero.Decode [0x01, 0x0a, 0, 0, 0, 0, 0, 0, 0, 10, 11, 12, 13, 14, 15, 16, 17, 18] =
      { mail := { typ := DATA, size := 10, data := [10] }, panic := none } := by
  decide

/-! ## Streaming decoder: one iteration of the read loop -/

theorem wrapInt_of_bounds {z : Int} (h1 : -(2 ^ 63) ≤ z) (h2 : z < 2 ^ 63) : wrapInt z = z := by
  unfold wrapInt
  omega

theorem toInt_of_lt {n : Nat} (h : n < 2 ^ 63) : toInt n = (n : Int) := by
  unfold toInt
  have h1 : n % 2 ^ 64 = n := Nat.mod_eq_of_lt (by omega)
  rw [h1, if_pos h]

/-- The comparison value `int(size) + 1 + 8` when nothing wraps. -/
theorem frameEnd_of_lt {n : Nat} (h : n < 2 ^ 63 - 9) :
    wrapInt (wrapInt (toInt n + (mailTypeSize : Int)) + (mailPayloadSize : Int)) = (n : Int) + 9 := by
  rw [toInt_of_lt (by omega)]
  simp only [mailTypeSize, mailPayloadSize]
  have h1 : wrapInt ((n : Int) + ((1 : Nat) : Int)) = (n : Int) + 1 := by
    rw [wrapInt_of_bounds (by omega) (by omega)]
    push_cast
    rfl
  rw [h1, wrapInt_of_bounds (by omega) (by omega)]
  push_cast
  omega

/-- A `Read` that returns an error ends the call with that error. -/
theorem DecodeFromLoop_error (m : Mail) (data bytes : List Byte) (e : StreamError)
    (rest : List ReadResult) :
    DecodeFromLoop m data ({ bytes := bytes, err := some e } :: rest) =
      { mail := m, outcome := Outcome.returned (some e), rest := rest } := by
  simp only [DecodeFromLoop]

/-- A zero-length `Read` without error ends the call with `nil`, whatever is buffered. -/
theorem DecodeFromLoop_zero_read (m : Mail) (data : List Byte) (rest : List ReadResult) :
    DecodeFromLoop m data (ReadResult.chunk [] :: rest) =
      { mail := m, outcome := Outcome.returned none, rest := rest } := by
  simp [DecodeFromLoop, ReadResult.chunk]

/-- A `Read` of fewer than nine bytes only stores the type and continues. -/
theorem DecodeFromLoop_short (m : Mail) (data c tl : List Byte) (b0 : Byte)
    (rest : List ReadResult) (hne : c ≠ []) (hlt : c.length < 9) (hd : data ++ c = b0 :: tl) :
    DecodeFromLoop m data (ReadResult.chunk c :: rest) =
      DecodeFromLoop { m with typ := b0 } (data ++ c) rest := by
  have h0 : c.length ≠ 0 := by simpa using hne
  have hb : ¬ bufferSize < c.length := by simp only [bufferSize]; omega
  have hw : ((c.length : Nat) : Int) < wrapInt ((mailTypeSize : Int) + (mailPayloadSize : Int)) := by
    simp only [mailTypeSize, mailPayloadSize]
    rw [wrapInt_of_bounds (by omega) (by omega)]
    push_cast
    omega
  simp only [DecodeFromLoop, ReadResult.chunk, h0, hb, if_false, hd, hw, if_true]

/-- A `Read` of nine bytes or more (within the buffer) stores type and size, and then
compares the size of this read with `int(size) + 1 + 8`. -/
theorem DecodeFromLoop_long (m : Mail) (data c tl : List Byte) (b0 : Byte)
    (rest : List ReadResult) (hge : 9 ≤ c.length) (hle : c.length ≤ 128)
    (hd : data ++ c = b0 :: tl) :
    DecodeFromLoop m data (ReadResult.chunk c :: rest) =
      if (c.length : Int) < wrapInt (wrapInt (toInt (Uint64 (((data ++ c).take 9).drop 1))
          + (mailTypeSize : Int)) + (mailPayloadSize : Int)) then
        DecodeFromLoop { typ := b0, size := Uint64 (((data ++ c).take 9).drop 1), data := m.data }
          (data ++ c) rest
      else
        match slice (data ++ c) 9 (Uint64 (((data ++ c).take 9).drop 1)) with
        | none =>
          { mail := { typ := b0, size := Uint64 (((data ++ c).take 9).drop 1), data := m.data },
            outcome := Outcome.panicked Panic.sliceBoundsOutOfRange, rest := rest }
        | some d =>
          { mail := { typ := b0, size := Uint64 (((data ++ c).take 9).drop 1),
                      data := m.data ++ d },
            outcome := Outcome.returned none, rest := rest } := by
  have h0 : c.length ≠ 0 := by omega
  have hb : ¬ bufferSize < c.length := by simp only [bufferSize]; omega
  have hw : ¬ ((c.length : Nat) : Int) < wrapInt ((mailTypeSize : Int) + (mailPayloadSize : Int)) := by
    simp only [mailTypeSize, mailPayloadSize]
    rw [wrapInt_of_bounds (by omega) (by omega)]
    push_cast
    omega
  have hs : slice (b0 :: tl) mailTypeSize (mailTypeSize + mailPayloadSize)
      = some (((b0 :: tl).take 9).drop 1) := by
    have hl : 9 ≤ (b0 :: tl).length := by
      rw [← hd, List.length_append]; omega
    simp only [slice, mailTypeSize, mailPayloadSize]
    rw [if_pos ⟨by omega, hl⟩]
  simp only [DecodeFromLoop, ReadResult.chunk, h0, hb, if_false, hd, hw, hs]
  rfl

/-! ## Streaming decoder: runs over a chunked stream -/

/-- A non-empty prefix of a stream starts with the first byte of the stream. -/
theorem prefix_head_eq {d S tl : List Byte} {b0 : Byte} (hd : d = b0 :: tl) (hp : d <+: S) :
    S.head? = some b0 := by
  obtain ⟨t, rfl⟩ := hp
  subst hd
  rfl

/-- A prefix of nine bytes or more has the first nine bytes of the stream. -/
theorem prefix_take_nine {d S : List Byte} (hp : d <+: S) (h9 : 9 ≤ d.length) :
    d.take 9 = S.take 9 := by
  obtain ⟨t, rfl⟩ := hp
  rw [List.take_append_of_le_length h9]

/-- Reads that never reach the end of the frame.  Let the stream `S` declare the size
`L` in its bytes 1..8.  Over successive non-empty reads of at most 128 bytes, each shorter
than `9 + L`, whose bytes extend `data` along `S`, the loop does not store a payload and
does not end: it arrives at the top of its next iteration with all the bytes buffered. -/
theorem DecodeFromLoop_incomplete (S : List Byte) (L : Nat)
    (hL : Uint64 ((S.take 9).drop 1) = L) (hLb : L < 2 ^ 63 - 9) :
    ∀ (cs : List (List Byte)) (m : Mail) (data : List Byte) (rest : List ReadResult),
      (∀ c ∈ cs, c ≠ [] ∧ c.length ≤ 128 ∧ c.length < 9 + L) →
      (data ++ cs.flatten) <+: S →
      ∃ m1 : Mail,
        DecodeFromLoop m data (cs.map ReadResult.chunk ++ rest)
          = DecodeFromLoop m1 (data ++ cs.flatten) rest ∧
        m1.data = m.data ∧ (m1.size = m.size ∨ m1.size = L) ∧
        ((S.head? = some m.typ ∨ cs ≠ []) → S.head? = some m1.typ) := by
  intro cs
  induction cs with
  | nil =>
    intro m data rest _ _
    exact ⟨m, by simp, rfl, Or.inl rfl, fun h => h.elim id (fun h => absurd rfl h)⟩
  | cons c cs ih =>
    intro m data rest hcs hp
    obtain ⟨hne, hle, hlt⟩ := hcs c (List.mem_cons_self _ _)
    have hcs1 : ∀ c1 ∈ cs, c1 ≠ [] ∧ c1.length ≤ 128 ∧ c1.length < 9 + L :=
      fun c1 h1 => hcs c1 (List.mem_cons_of_mem _ h1)
    have hp1 : ((data ++ c) ++ cs.flatten) <+: S := by
      simpa [List.flatten, List.append_assoc] using hp
    have hpc : (data ++ c) <+: S := (List.prefix_append _ _).trans hp1
    obtain ⟨b0, tl, hd⟩ : ∃ b0 tl, data ++ c = b0 :: tl := by
      cases hdc : data ++ c with
      | nil => exact absurd (List.append_eq_nil.mp hdc).2 hne
      | cons b0 tl => exact ⟨b0, tl, rfl⟩
    have hhead : S.head? = some b0 := prefix_head_eq hd hpc
    have hflat : data ++ (c :: cs).flatten = (data ++ c) ++ cs.flatten := by
      simp [List.flatten, List.append_assoc]
    rw [List.map_cons, List.cons_append, hflat]
    by_cases h9 : c.length < 9
    · rw [DecodeFromLoop_short m data c tl b0 _ hne h9 hd]
      obtain ⟨m1, hrun, hdata, hsize, htyp⟩ := ih { m with typ := b0 } (data ++ c) rest hcs1 hp1
      exact ⟨m1, hrun, hdata, hsize, fun _ => htyp (Or.inl hhead)⟩
    · have hlen9 : 9 ≤ (data ++ c).length := by rw [List.length_append]; omega
      have hsz : Uint64 (((data ++ c).take 9).drop 1) = L := by
        rw [prefix_take_nine hpc hlen9, hL]
      rw [DecodeFromLoop_long m data c tl b0 _ (by omega) hle hd, hsz, frameEnd_of_lt hLb,
        if_pos (by omega)]
      obtain ⟨m1, hrun, hdata, hsize, htyp⟩ :=
        ih { typ := b0, size := L, data := m.data } (data ++ c) rest hcs1 hp1
      refine ⟨m1, hrun, hdata, ?_, fun _ => htyp (Or.inl hhead)⟩
      rcases hsize with h | h
      · exact Or.inr h
      · exact Or.inr h

/-- A `Read` that reports more bytes than the buffer holds makes `buffer[:n]` panic. -/
theorem DecodeFromLoop_oversize (m : Mail) (data c : List Byte) (rest : List ReadResult)
    (hbig : 128 < c.length) :
    DecodeFromLoop m data (ReadResult.chunk c :: rest) =
      { mail := m, outcome := Outcome.panicked Panic.sliceBoundsOutOfRange, rest := rest } := by
  have h0 : c.length ≠ 0 := by omega
  have hb : bufferSize < c.length := hbig
  simp only [DecodeFromLoop, ReadResult.chunk, h0, hb, if_false, if_true]

/-- The size field written for a mail, read back from the first nine bytes of its
encoding followed by anything. -/
theorem declared_Encode (m : Mail) (t : List Byte) :
    Uint64 (((m.Encode ++ t).take 9).drop 1) = m.size % 2 ^ 64 := by
  have h : ((m.Encode ++ t).take 9).drop 1 = PutUint64 m.size := by
    simp [Encode_eq, PutUint64]
  rw [h, Uint64_PutUint64]

/-- A chunk is no longer than the concatenation of the chunks. -/
theorem length_le_flatten {c : List Byte} : ∀ {cs : List (List Byte)}, c ∈ cs →
    c.length ≤ cs.flatten.length := by
  intro cs
  induction cs with
  | nil => intro h; exact absurd h (List.not_mem_nil _)
  | cons c1 cs ih =>
    intro h
    have hl : (c1 :: cs).flatten.length = c1.length + cs.flatten.length := by
      simp [List.flatten]
    rcases List.mem_cons.mp h with h1 | h1
    · subst h1; omega
    · have := ih h1; omega

/-- Once nine bytes are buffered and the type field holds the first of them, whatever
the reader does next leaves the type as it is and the size either as it is or equal to
the size declared in the buffered bytes 1..8. -/
theorem DecodeFromLoop_header_stable :
    ∀ (src : List ReadResult) (m : Mail) (data : List Byte),
      9 ≤ data.length → data.head? = some m.typ →
      (DecodeFromLoop m data src).mail.typ = m.typ ∧
      ((DecodeFromLoop m data src).mail.size = m.size ∨
        (DecodeFromLoop m data src).mail.size = Uint64 ((data.take 9).drop 1)) := by
  intro src
  induction src with
  | nil => intro m data _ _; exact ⟨rfl, Or.inl rfl⟩
  | cons r rest ih =>
    intro m data h9 hhead
    obtain ⟨c, err⟩ := r
    cases err with
    | some e => rw [DecodeFromLoop_error]; exact ⟨rfl, Or.inl rfl⟩
    | none =>
      have hr : ({ bytes := c, err := none } : ReadResult) = ReadResult.chunk c := rfl
      rw [hr]
      by_cases hne : c = []
      · subst hne; rw [DecodeFromLoop_zero_read]; exact ⟨rfl, Or.inl rfl⟩
      by_cases hbig : 128 < c.length
      · rw [DecodeFromLoop_oversize m data c rest hbig]; exact ⟨rfl, Or.inl rfl⟩
      obtain ⟨b0, tl0, hd0⟩ : ∃ b0 tl0, data = b0 :: tl0 := by
        cases data with
        | nil => simp at h9
        | cons b0 tl0 => exact ⟨b0, tl0, rfl⟩
      have hb0 : b0 = m.typ := by
        rw [hd0] at hhead; simpa using hhead
      have hd : data ++ c = b0 :: (tl0 ++ c) := by rw [hd0]; rfl
      have h9c : 9 ≤ (data ++ c).length := by rw [List.length_append]; omega
      have hhead1 : (data ++ c).head? = some b0 := by rw [hd]; rfl
      have htake : (data ++ c).take 9 = data.take 9 := List.take_append_of_le_length h9
      have hm : ({ m with typ := b0 } : Mail) = m := by rw [hb0]
      by_cases hshort : c.length < 9
      · rw [DecodeFromLoop_short m data c _ b0 rest hne hshort hd, hm]
        have := ih m (data ++ c) h9c (by rw [hhead1, hb0])
        rw [htake] at this
        exact this
      · rw [DecodeFromLoop_long m data c _ b0 rest (by omega) (by omega) hd, htake]
        split
        · have := ih { typ := b0, size := Uint64 ((data.take 9).drop 1), data := m.data }
            (data ++ c) h9c hhead1
          rw [htake] at this
          refine ⟨this.1.trans hb0, ?_⟩
          rcases this.2 with h | h
          · exact Or.inr h
          · exact Or.inr h
        · split
          · exact ⟨hb0, Or.inr rfl⟩
          · exact ⟨hb0, Or.inr rfl⟩

/-- Reads that cut a stream `S` of nine bytes or more: after them, and after anything
the reader does next, the type is the first byte of `S` and the size is either untouched
or the size declared in bytes 1..8 of `S`. -/
theorem DecodeFromLoop_chunked (S : List Byte) (h9 : 9 ≤ S.length) :
    ∀ (cs : List (List Byte)) (m : Mail) (data : List Byte) (rest : List ReadResult),
      (∀ c ∈ cs, c ≠ [] ∧ c.length ≤ 128) →
      data ++ cs.flatten = S →
      (S.head? = some m.typ ∨ cs ≠ []) →
      S.head? = some (DecodeFromLoop m data (cs.map ReadResult.chunk ++ rest)).mail.typ ∧
      ((DecodeFromLoop m data (cs.map ReadResult.chunk ++ rest)).mail.size = m.size ∨
        (DecodeFromLoop m data (cs.map ReadResult.chunk ++ rest)).mail.size
          = Uint64 ((S.take 9).drop 1)) := by
  intro cs
  induction cs with
  | nil =>
    intro m data rest _ hS hty
    have hdS : data = S := by simpa using hS
    subst hdS
    have hhead : data.head? = some m.typ := hty.elim id (fun h => absurd rfl h)
    have := DecodeFromLoop_header_stable rest m data h9 hhead
    simp only [List.map_nil, List.nil_append]
    exact ⟨by rw [this.1]; exact hhead, this.2⟩
  | cons c cs ih =>
    intro m data rest hcs hS _
    obtain ⟨hne, hle⟩ := hcs c (List.mem_cons_self _ _)
    have hcs1 : ∀ c1 ∈ cs, c1 ≠ [] ∧ c1.length ≤ 128 :=
      fun c1 h1 => hcs c1 (List.mem_cons_of_mem _ h1)
    have hS1 : (data ++ c) ++ cs.flatten = S := by
      simpa [List.flatten, List.append_assoc] using hS
    have hpc : (data ++ c) <+: S := ⟨cs.flatten, hS1⟩
    obtain ⟨b0, tl, hd⟩ : ∃ b0 tl, data ++ c = b0 :: tl := by
      cases hdc : data ++ c with
      | nil => exact absurd (List.append_eq_nil.mp hdc).2 hne
      | cons b0 tl => exact ⟨b0, tl, rfl⟩
    have hhead : S.head? = some b0 := prefix_head_eq hd hpc
    rw [List.map_cons, List.cons_append]
    by_cases hshort : c.length < 9
    · rw [DecodeFromLoop_short m data c tl b0 _ hne hshort hd]
      exact ih { m with typ := b0 } (data ++ c) rest hcs1 hS1 (Or.inl hhead)
    · have hlen9 : 9 ≤ (data ++ c).length := by rw [List.length_append]; omega
      rw [DecodeFromLoop_long m data c tl b0 _ (by omega) hle hd,
        prefix_take_nine hpc hlen9]
      split
      · have := ih { typ := b0, size := Uint64 ((S.take 9).drop 1), data := m.data }
          (data ++ c) rest hcs1 hS1 (Or.inl hhead)
        refine ⟨this.1, ?_⟩
        rcases this.2 with h | h
        · exact Or.inr h
        · exact Or.inr h
      · split
        · exact ⟨hhead, Or.inr rfl⟩
        · exact ⟨hhead, Or.inr rfl⟩

/-! ## Streaming decoder: the claims -/

/-- C4, counterexample. Streaming equivalence fails for a single mail and for a
sequence.  The frame of `New(LOG, "hi")` delivered one byte per read and followed by a
zero-length read makes `DecodeFrom` return `nil` with size 0 and no data; two frames
delivered by one read are used up by one call, which stores one mail (with one payload
byte of ten) and leaves nothing of the second frame to a later call. -/
theorem C4_streaming_equivalence_fails :
    Mail.zero.DecodeFrom
        (((New LOG [0x68, 0x69]).Encode.map (fun b => ReadResult.chunk [b]))
          ++ [ReadResult.chunk []]) =
      { mail := { typ := LOG, size := 0, data := [] }, outcome := Outcome.returned none,
        rest := [] } ∧
    Mail.zero.DecodeFrom
        [ReadResult.chunk ((New DATA [0, 1, 2, 3, 4, 5, 6, 7, 8, 9]).Encode
          ++ (New LOG [0x68, 0x69]).Encode)] =
      { mail := { typ := DATA, size := 10, data := [0] }, outcome := Outcome.returned none,
        rest := [] } ∧
    Mail.zero.DecodeFrom [] =
      { mail := Mail.zero, outcome := Outcome.pending, rest := [] } := by
  refine ⟨by decide, by decide, by decide⟩

/-- C4, amended. `DecodeFrom` fills one mail per call.  For every mail `f1` built by
`New` and every cutting of its encoding into non-empty reads of at most 128 bytes,
whatever the reader returns afterwards, the call leaves the type equal to the type of
`f1` and the size either untouched or equal to the size of `f1`. -/
theorem C4_decodeFrom_type_and_size (m0 : Mail) (typ : MailType) (data : List Byte)
    (cs : List (List Byte)) (rest : List ReadResult)
    (hcs : ∀ c ∈ cs, c ≠ [] ∧ c.length ≤ 128)
    (hflat : cs.flatten = (New typ data).Encode) :
    (m0.DecodeFrom (cs.map ReadResult.chunk ++ rest)).mail.typ = typ ∧
    ((m0.DecodeFrom (cs.map ReadResult.chunk ++ rest)).mail.size = m0.size ∨
      (m0.DecodeFrom (cs.map ReadResult.chunk ++ rest)).mail.size = (New typ data).size) := by
  have h9 : 9 ≤ (New typ data).Encode.length := by rw [Encode_length]; omega
  have hne : cs ≠ [] := by
    intro h
    rw [h] at hflat
    rw [← hflat] at h9
    simp at h9
  have hdecl : Uint64 (((New typ data).Encode.take 9).drop 1) = (New typ data).size := by
    have := declared_Encode (New typ data) []
    rw [List.append_nil] at this
    rw [this]
    exact Nat.mod_eq_of_lt (Nat.mod_lt _ (by decide))
  have h := DecodeFromLoop_chunked (New typ data).Encode h9 cs m0 [] rest hcs
    (by rw [List.nil_append]; exact hflat) (Or.inr hne)
  rw [hdecl] at h
  refine ⟨?_, h.2⟩
  have h1 := h.1
  rw [Encode_eq] at h1
  simpa [New, Mail.DecodeFrom] using h1.symm

/-- Witness for C4: the frame of `"hi"` cut inside its header. -/
theorem C4_decodeFrom_type_and_size_witness :
    (Mail.zero.DecodeFrom
      ([[0x00, 0x02, 0, 0], [0, 0, 0, 0, 0, 0x68, 0x69]].map ReadResult.chunk ++ [])).mail.typ
      = LOG :=
  (C4_decodeFrom_type_and_size Mail.zero LOG [0x68, 0x69]
    [[0x00, 0x02, 0, 0], [0, 0, 0, 0, 0, 0x68, 0x69]] [] (by decide) (by decide)).1

/-- C7, counterexample. The frame of `New(LOG, "hi")` with its final byte withheld,
then a zero-length read: `DecodeFrom` returns `nil`, not an error, although ten bytes
were buffered. -/
theorem C7_truncated_stream_no_error :
    Mail.zero.DecodeFrom
        [ReadResult.chunk (New LOG [0x68, 0x69]).Encode.dropLast, ReadResult.chunk []] =
      { mail := { typ := LOG, size := 2, data := [] }, outcome := Outcome.returned none,
        rest := [] } ∧
    ¬ ∃ e, (Mail.zero.DecodeFrom
        [ReadResult.chunk (New LOG [0x68, 0x69]).Encode.dropLast, ReadResult.chunk []]).outcome
      = Outcome.returned (some e) := by
  have h : Mail.zero.DecodeFrom
        [ReadResult.chunk (New LOG [0x68, 0x69]).Encode.dropLast, ReadResult.chunk []] =
      { mail := { typ := LOG, size := 2, data := [] }, outcome := Outcome.returned none,
        rest := [] } := by decide
  refine ⟨h, ?_⟩
  rintro ⟨e, he⟩
  rw [h] at he
  cases he

/-- C7, amended. For every mail `f` built by `New` with a payload shorter than
`2 ^ 63 - 9` bytes: when the reader delivers the encoding of `f` without its final byte,
cut in any way into non-empty reads of at most 128 bytes, and then makes a zero-length
read without error, `DecodeFrom` returns `nil` at that read; no payload is stored (the
data is left as it was), the type is that of `f` and the size is untouched or that of
`f`.  A zero-length read without error ends the loop with `nil` whatever is buffered. -/
theorem C7_truncated_stream_returns_nil (m0 : Mail) (typ : MailType) (data : List Byte)
    (cs : List (List Byte)) (rest : List ReadResult)
    (hlen : data.length < 2 ^ 63 - 9)
    (hcs : ∀ c ∈ cs, c ≠ [] ∧ c.length ≤ 128)
    (hflat : cs.flatten = (New typ data).Encode.dropLast) :
    (∃ m1 : Mail,
      m0.DecodeFrom (cs.map ReadResult.chunk ++ ReadResult.chunk [] :: rest) =
        { mail := m1, outcome := Outcome.returned none, rest := rest } ∧
      m1.data = m0.data ∧ m1.typ = typ ∧
      (m1.size = m0.size ∨ m1.size = data.length)) ∧
    (∀ (m : Mail) (buffered : List Byte),
      DecodeFromLoop m buffered (ReadResult.chunk [] :: rest) =
        { mail := m, outcome := Outcome.returned none, rest := rest }) := by
  refine ⟨?_, fun m buffered => DecodeFromLoop_zero_read m buffered rest⟩
  have hsz : (New typ data).size = data.length := toUint64_of_lt (by omega)
  have hdecl : Uint64 (((New typ data).Encode.take 9).drop 1) = data.length := by
    have := declared_Encode (New typ data) []
    rw [List.append_nil] at this
    rw [this, hsz]
    exact Nat.mod_eq_of_lt (by omega)
  have hflen : cs.flatten.length = 8 + data.length := by
    rw [hflat, List.length_dropLast, Encode_length]
    have : (New typ data).data.length = data.length := rfl
    omega
  have hcs1 : ∀ c ∈ cs, c ≠ [] ∧ c.length ≤ 128 ∧ c.length < 9 + data.length := by
    intro c hc
    have := length_le_flatten hc
    exact ⟨(hcs c hc).1, (hcs c hc).2, by omega⟩
  have hp : ([] ++ cs.flatten) <+: (New typ data).Encode := by
    rw [List.nil_append, hflat]
    exact List.dropLast_prefix _
  obtain ⟨m1, hrun, hdata, hsize, htyp⟩ :=
    DecodeFromLoop_incomplete (New typ data).Encode data.length hdecl hlen cs m0 []
      (ReadResult.chunk [] :: rest) hcs1 hp
  have hne : cs ≠ [] := by
    intro h
    rw [h] at hflen
    simp at hflen
    omega
  refine ⟨m1, ?_, hdata, ?_, hsize⟩
  · rw [Mail.DecodeFrom, hrun, DecodeFromLoop_zero_read]
  · have := htyp (Or.inr hne)
    rw [Encode_eq] at this
    simpa [New] using this.symm

/-- Witness for C7: the frame of `"hi"` without its last byte, in two reads. -/
theorem C7_truncated_stream_returns_nil_witness :
    ∃ m1 : Mail,
      Mail.zero.DecodeFrom
        ([[0x00, 0x02, 0, 0], [0, 0, 0, 0, 0, 0x68]].map ReadResult.chunk
          ++ ReadResult.chunk [] :: []) =
        { mail := m1, outcome := Outcome.returned none, rest := [] } ∧
      m1.data = Mail.zero.data ∧ m1.typ = LOG ∧
      (m1.size = Mail.zero.size ∨ m1.size = ([0x68, 0x69] : List Byte).length) :=
  (C7_truncated_stream_returns_nil Mail.zero LOG [0x68, 0x69]
    [[0x00, 0x02, 0, 0], [0, 0, 0, 0, 0, 0x68]] [] (by decide) (by decide) (by decide)).1

/-- C8, counterexample. One read delivers the frames of three mails (39 bytes):
`DecodeFrom` ends after that read having filled one mail, which is not the first mail
(one payload byte of ten); the bytes of the second and third frame are gone with the
call, and a second call on what is left of the reader finds nothing to decode. -/
theorem C8_three_frames_one_mail :
    Mail.zero.DecodeFrom
        [ReadResult.chunk ((New DATA [0, 1, 2, 3, 4, 5, 6, 7, 8, 9]).Encode
          ++ ((New LOG [0x68]).Encode ++ (New LOG [0x69]).Encode))] =
      { mail := { typ := DATA, size := 10, data := [0] }, outcome := Outcome.returned none,
        rest := [] } ∧
    Mail.zero.DecodeFrom
        (Mail.zero.DecodeFrom
          [ReadResult.chunk ((New DATA [0, 1, 2, 3, 4, 5, 6, 7, 8, 9]).Encode
            ++ ((New LOG [0x68]).Encode ++ (New LOG [0x69]).Encode))]).rest =
      { mail := Mail.zero, outcome := Outcome.pending, rest := [] } := by
  constructor <;> decide

/-- C8, amended. When a single read delivers the concatenation of the encodings of
three mails built by `New` (at most 128 bytes in all), `DecodeFrom` fills one mail: the
call ends at that read (it asks for no further read and reports no read error), the
reads that follow are left to the reader, and the mail bears the type and the size of
the first of the three. -/
theorem C8_single_read_fills_one_mail (m0 : Mail) (t1 t2 t3 : MailType)
    (d1 d2 d3 : List Byte) (rest : List ReadResult)
    (htot : ((New t1 d1).Encode ++ ((New t2 d2).Encode ++ (New t3 d3).Encode)).length ≤ 128) :
    (m0.DecodeFrom (ReadResult.chunk
        ((New t1 d1).Encode ++ ((New t2 d2).Encode ++ (New t3 d3).Encode)) :: rest)).rest = rest ∧
    (m0.DecodeFrom (ReadResult.chunk
        ((New t1 d1).Encode ++ ((New t2 d2).Encode ++ (New t3 d3).Encode)) :: rest)).mail.typ = t1 ∧
    (m0.DecodeFrom (ReadResult.chunk
        ((New t1 d1).Encode ++ ((New t2 d2).Encode ++ (New t3 d3).Encode)) :: rest)).mail.size
      = d1.length ∧
    ((m0.DecodeFrom (ReadResult.chunk
        ((New t1 d1).Encode ++ ((New t2 d2).Encode ++ (New t3 d3).Encode)) :: rest)).outcome
      = Outcome.returned none ∨
     (m0.DecodeFrom (ReadResult.chunk
        ((New t1 d1).Encode ++ ((New t2 d2).Encode ++ (New t3 d3).Encode)) :: rest)).outcome
      = Outcome.panicked Panic.sliceBoundsOutOfRange) := by
  have hl : ((New t1 d1).Encode ++ ((New t2 d2).Encode ++ (New t3 d3).Encode)).length
      = 27 + d1.length + d2.length + d3.length := by
    simp only [List.length_append, Encode_length, New]
    omega
  have hd1 : d1.length < 2 ^ 63 - 9 := by omega
  have hsz : (New t1 d1).size = d1.length := toUint64_of_lt (by omega)
  have hdecl : Uint64 ((([] ++ ((New t1 d1).Encode
      ++ ((New t2 d2).Encode ++ (New t3 d3).Encode))).take 9).drop 1) = d1.length := by
    rw [List.nil_append, declared_Encode, hsz]
    exact Nat.mod_eq_of_lt (by omega)
  have hd : [] ++ ((New t1 d1).Encode ++ ((New t2 d2).Encode ++ (New t3 d3).Encode))
      = t1 :: ((PutUint64 (New t1 d1).size ++ d1)
          ++ ((New t2 d2).Encode ++ (New t3 d3).Encode)) := by
    rw [List.nil_append, Encode_eq]
    rfl
  rw [Mail.DecodeFrom, DecodeFromLoop_long m0 [] _ _ t1 rest (by omega) htot hd, hdecl,
    frameEnd_of_lt hd1, if_neg (by omega)]
  split
  · exact ⟨rfl, rfl, rfl, Or.inr rfl⟩
  · exact ⟨rfl, rfl, rfl, Or.inl rfl⟩

/-- Witness for C8: three frames with payloads of ten, one and one byte. -/
theorem C8_single_read_fills_one_mail_witness :
    (Mail.zero.DecodeFrom (ReadResult.chunk
        ((New DATA [0, 1, 2, 3, 4, 5, 6, 7, 8, 9]).Encode
          ++ ((New LOG [0x68]).Encode ++ (New LOG [0x69]).Encode)) :: [])).mail.size
      = ([0, 1, 2, 3, 4, 5, 6, 7, 8, 9] : List Byte).length :=
  (C8_single_read_fills_one_mail Mail.zero DATA LOG LOG [0, 1, 2, 3, 4, 5, 6, 7, 8, 9]
    [0x68] [0x69] [] (by decide)).2.2.1

/-! ## Writing a mail: the claims -/

theorem acceptedBytes_append (calls : List WriteCall) (c : WriteCall) :
    acceptedBytes (calls ++ [c]) = acceptedBytes calls ++ c.p.take c.result.n := by
  simp [acceptedBytes, WriteCall.accepted]

/-- The write loop against a writer that accepts between one byte and the whole slice at
every call and reports no error: with the bytes accepted so far being the first `written`
bytes of `data`, and one iteration available per byte left, the loop returns `nil` and
the bytes accepted over all calls are exactly `data`. -/
theorem EncodeToLoop_flushes {σ : Type} (dst : Writer σ) (data : List Byte)
    (hw : ∀ (s : σ) (p : List Byte), p ≠ [] →
      (dst.write s p).1.err = none ∧ 1 ≤ (dst.write s p).1.n ∧ (dst.write s p).1.n ≤ p.length) :
    ∀ (fuel : Nat) (s : σ) (written : Nat) (calls : List WriteCall),
      written < data.length → data.length - written ≤ fuel →
      acceptedBytes calls = data.take written →
      (EncodeToLoop dst data fuel s written calls).outcome = Outcome.returned none ∧
      acceptedBytes (EncodeToLoop dst data fuel s written calls).calls = data := by
  intro fuel
  induction fuel with
  | zero => intro s written calls h1 h2 _; omega
  | succ fuel ih =>
    intro s written calls h1 h2 hacc
    have hp : data.drop written ≠ [] := by
      intro h
      have := congrArg List.length h
      simp only [List.length_drop, List.length_nil] at this
      omega
    obtain ⟨herr, hn1, hn2⟩ := hw s (data.drop written) hp
    rw [List.length_drop] at hn2
    have hacc1 : acceptedBytes (calls ++ [WriteCall.mk (data.drop written)
        (dst.write s (data.drop written)).1])
        = data.take (written + (dst.write s (data.drop written)).1.n) := by
      rw [acceptedBytes_append, hacc, List.take_add]
    simp only [EncodeToLoop, if_pos (Nat.le_of_lt h1), herr]
    by_cases hdone : written + (dst.write s (data.drop written)).1.n = data.length
    · rw [if_pos hdone]
      refine ⟨rfl, ?_⟩
      show acceptedBytes (calls ++ [_]) = data
      rw [hacc1, hdone, List.take_length]
    · rw [if_neg hdone]
      exact ih _ _ _ (by omega) (by omega) hacc1

/-- C9. Partial writes are retried until the frame is flushed: for every mail and every
writer whose `Write` calls each accept between 1 and `len(p)` bytes of the slice they are
given and return no error, `EncodeTo` ends within as many iterations as the encoding has
bytes, returns `nil`, and the bytes accepted over all `Write` calls, in call order, are
exactly the encoding of the mail. -/
theorem C9_EncodeTo_flushes {σ : Type} (dst : Writer σ) (s : σ) (m : Mail) (fuel : Nat)
    (hw : ∀ (s : σ) (p : List Byte), p ≠ [] →
      (dst.write s p).1.err = none ∧ 1 ≤ (dst.write s p).1.n ∧ (dst.write s p).1.n ≤ p.length)
    (hfuel : m.Encode.length ≤ fuel) :
    (m.EncodeTo dst s fuel).outcome = Outcome.returned none ∧
    acceptedBytes (m.EncodeTo dst s fuel).calls = m.Encode := by
  have hpos : 0 < m.Encode.length := by rw [Encode_length]; omega
  exact EncodeToLoop_flushes dst m.Encode hw fuel s 0 [] hpos (by omega) rfl

/-- Witness for C9: the frame of `"hi"` through a writer that takes two bytes a call. -/
theorem C9_EncodeTo_flushes_witness :
    ((New LOG [0x68, 0x69]).EncodeTo twoByteWriter () 11).outcome = Outcome.returned none ∧
    acceptedBytes ((New LOG [0x68, 0x69]).EncodeTo twoByteWriter () 11).calls
      = (New LOG [0x68, 0x69]).Encode :=
  C9_EncodeTo_flushes twoByteWriter () (New LOG [0x68, 0x69]) 11
    (fun _ p hp => by
      have : 0 < p.length := List.length_pos.mpr hp
      exact ⟨rfl, Nat.le_min.mpr ⟨by decide, this⟩, Nat.min_le_right _ _⟩)
    (by decide)

/-! ## Emitters: the claims -/

/-- C10, counterexample. A write failure does not reach the caller of the emitters: on a
writer whose `Write` fails, `EncodeTo` returns the error, yet `SendData` and `Logf` end
exactly as they do on a writer that accepts the whole frame. -/
theorem C10_emitters_hide_write_failure :
    ((New DATA [1, 2, 3]).EncodeTo failingWriter () 1).outcome
      = Outcome.returned (some { code := 5 }) ∧
    ((New DATA [1, 2, 3]).EncodeTo wholeWriter () 1).outcome = Outcome.returned none ∧
    (SendData failingWriter () 1 [1, 2, 3]).outcome = EmitOutcome.returned ∧
    (SendData wholeWriter () 1 [1, 2, 3]).outcome = EmitOutcome.returned ∧
    (Logf concatSprintf failingWriter () 1 [0x68] [0x69]).outcome = EmitOutcome.returned ∧
    (Logf concatSprintf wholeWriter () 1 [0x68] [0x69]).outcome = EmitOutcome.returned := by
  refine ⟨by decide, by decide, by decide, by decide, by decide, by decide⟩

/-- C10, amended. `SendData` and `Logf` have no result.  They make exactly the `Write`
calls of `EncodeTo` on the `DATA` mail of the data (on the `LOG` mail of the formatted
message), and they return normally whenever `EncodeTo` returns, be it with `nil` or with
a write error: the error is dropped. -/
theorem C10_emitters_drop_write_error {σ F A : Type} (sprintf : F → A → List Byte)
    (stdout : Writer σ) (s : σ) (fuel : Nat) (format : F) (args : A) (data : List Byte) :
    (SendData stdout s fuel data).calls = ((New DATA data).EncodeTo stdout s fuel).calls ∧
    ((SendData stdout s fuel data).outcome = EmitOutcome.returned ↔
      ∃ err, ((New DATA data).EncodeTo stdout s fuel).outcome = Outcome.returned err) ∧
    (Logf sprintf stdout s fuel format args).calls
      = ((New LOG (sprintf format args)).EncodeTo stdout s fuel).calls ∧
    ((Logf sprintf stdout s fuel format args).outcome = EmitOutcome.returned ↔
      ∃ err, ((New LOG (sprintf format args)).EncodeTo stdout s fuel).outcome
        = Outcome.returned err) := by
  have key : ∀ o : Outcome, o.dropResult = EmitOutcome.returned ↔
      ∃ err, o = Outcome.returned err := by
    intro o
    cases o with
    | returned err => exact ⟨fun _ => ⟨err, rfl⟩, fun _ => rfl⟩
    | panicked p =>
      constructor
      · intro h; cases h
      · rintro ⟨err, h⟩; cases h
    | pending =>
      constructor
      · intro h; cases h
      · rintro ⟨err, h⟩; cases h
  exact ⟨rfl, key _, rfl, key _⟩

/-! ## Write errors in `EncodeTo` -/

/-- The write loop and write errors.  With no failed call among the calls made so far:
a call that returns an error is the last call of the run and the run returns that error. -/
theorem EncodeToLoop_first_error {σ : Type} (dst : Writer σ) (data : List Byte) :
    ∀ (fuel : Nat) (s : σ) (written : Nat) (calls : List WriteCall),
      (∀ c ∈ calls, c.result.err = none) →
      ∀ (k : Nat) (c : WriteCall) (e : StreamError),
        (EncodeToLoop dst data fuel s written calls).calls[k]? = some c →
        c.result.err = some e →
        (EncodeToLoop dst data fuel s written calls).calls.length = k + 1 ∧
        (EncodeToLoop dst data fuel s written calls).outcome = Outcome.returned (some e) := by
  intro fuel
  induction fuel with
  | zero =>
    intro s written calls hall k c e hk he
    have hmem : c ∈ calls := List.getElem?_mem hk
    rw [hall c hmem] at he
    cases he
  | succ fuel ih =>
    intro s written calls hall k c e hk he
    simp only [EncodeToLoop] at hk ⊢
    split at hk
    · rename_i hle
      rw [if_pos hle]
      cases herr : (dst.write s (data.drop written)).1.err with
      | some e1 =>
        simp only [herr] at hk ⊢
        rw [List.getElem?_append] at hk
        split at hk
        · have hmem : c ∈ calls := List.getElem?_mem hk
          rw [hall c hmem] at he
          cases he
        · rename_i hge
          have hk0 : k - calls.length = 0 := by
            by_contra hne
            have h1 : k - calls.length = (k - calls.length - 1) + 1 := by omega
            rw [h1] at hk
            simp at hk
          rw [hk0] at hk
          simp only [List.getElem?_cons_zero, Option.some.injEq] at hk
          subst hk
          simp only [herr, Option.some.injEq] at he
          subst he
          refine ⟨?_, rfl⟩
          simp only [List.length_append, List.length_singleton]
          omega
      | none =>
        simp only [herr] at hk ⊢
        have hall1 : ∀ c1 ∈ calls ++ [WriteCall.mk (data.drop written)
            (dst.write s (data.drop written)).1], c1.result.err = none := by
          intro c1 hc1
          rcases List.mem_append.mp hc1 with h | h
          · exact hall c1 h
          · rw [List.mem_singleton.mp h]; exact herr
        split at hk
        · rename_i hdone
          rw [if_pos hdone]
          have hmem := List.getElem?_mem hk
          rw [hall1 c hmem] at he
          cases he
        · rename_i hdone
          rw [if_neg hdone]
          exact ih _ _ _ hall1 k c e hk he
    · rename_i hle
      have hmem : c ∈ calls := List.getElem?_mem hk
      rw [hall c hmem] at he
      cases he

/-- C11. `EncodeTo` aborts on the first write error: for every mail and every writer, if
the `k`-th `Write` call of the run (index `k - 1` in call order) returns an error, then
the run made exactly `k` calls and `EncodeTo` returns that same error; and a run that
returns `nil` has no failed `Write` call. -/
theorem C11_EncodeTo_aborts_on_first_error {σ : Type} (dst : Writer σ) (s : σ) (m : Mail)
    (fuel : Nat) :
    (∀ (k : Nat) (c : WriteCall) (e : StreamError),
      (m.EncodeTo dst s fuel).calls[k]? = some c → c.result.err = some e →
      (m.EncodeTo dst s fuel).calls.length = k + 1 ∧
      (m.EncodeTo dst s fuel).outcome = Outcome.returned (some e)) ∧
    ((m.EncodeTo dst s fuel).outcome = Outcome.returned none →
      ∀ c ∈ (m.EncodeTo dst s fuel).calls, c.result.err = none) := by
  have key := EncodeToLoop_first_error dst m.Encode fuel s 0 []
    (fun c hc => absurd hc (List.not_mem_nil c))
  refine ⟨key, ?_⟩
  intro hnil c hc
  obtain ⟨k, hk⟩ := List.getElem?_of_mem hc
  cases herr : c.result.err with
  | none => rfl
  | some e =>
    have := (key k c e hk herr).2
    rw [Mail.EncodeTo] at hnil
    rw [hnil] at this
    cases this

/-! ## Read errors in `DecodeFrom` -/

/-- A run of the read loop that is still pending at the end of a script goes on, when
the script is extended, from the mail it had reached and some buffered data. -/
theorem DecodeFromLoop_pending_append :
    ∀ (pre : List ReadResult) (m : Mail) (data : List Byte),
      (DecodeFromLoop m data pre).outcome = Outcome.pending →
      ∃ data1 : List Byte, ∀ s : List ReadResult,
        DecodeFromLoop m data (pre ++ s) = DecodeFromLoop (DecodeFromLoop m data pre).mail data1 s := by
  intro pre
  induction pre with
  | nil => intro m data _; exact ⟨data, fun s => rfl⟩
  | cons r rest ih =>
    intro m data hpend
    obtain ⟨c, err⟩ := r
    cases err with
    | some e => rw [DecodeFromLoop_error] at hpend; cases hpend
    | none =>
      have hr : ({ bytes := c, err := none } : ReadResult) = ReadResult.chunk c := rfl
      rw [hr] at hpend ⊢
      by_cases hne : c = []
      · subst hne; rw [DecodeFromLoop_zero_read] at hpend; cases hpend
      by_cases hbig : 128 < c.length
      · rw [DecodeFromLoop_oversize m data c rest hbig] at hpend; cases hpend
      obtain ⟨b0, tl, hd⟩ : ∃ b0 tl, data ++ c = b0 :: tl := by
        cases hdc : data ++ c with
        | nil => exact absurd (List.append_eq_nil.mp hdc).2 hne
        | cons b0 tl => exact ⟨b0, tl, rfl⟩
      by_cases hshort : c.length < 9
      · rw [DecodeFromLoop_short m data c tl b0 rest hne hshort hd] at hpend ⊢
        obtain ⟨data1, h1⟩ := ih _ _ hpend
        refine ⟨data1, fun s => ?_⟩
        rw [List.cons_append, DecodeFromLoop_short m data c tl b0 (rest ++ s) hne hshort hd]
        exact h1 s
      · rw [DecodeFromLoop_long m data c tl b0 rest (by omega) (by omega) hd] at hpend ⊢
        split at hpend
        · rename_i hlt
          rw [if_pos hlt]
          obtain ⟨data1, h1⟩ := ih _ _ hpend
          refine ⟨data1, fun s => ?_⟩
          rw [List.cons_append,
            DecodeFromLoop_long m data c tl b0 (rest ++ s) (by omega) (by omega) hd, if_pos hlt]
          exact h1 s
        · split at hpend <;> cases hpend

/-- C12. Read errors propagate immediately: for every reader, if `DecodeFrom` is still
running after the first `k - 1` reads (none of them ended the call) and the `k`-th `Read`
returns an error, then `DecodeFrom` returns exactly that error at the `k`-th read: the
reads after it are not made, the bytes that came with the error are not used, and the
mail is as the first `k - 1` reads left it. -/
theorem C12_DecodeFrom_returns_read_error (m0 : Mail) (pre rest : List ReadResult)
    (bytes : List Byte) (e : StreamError)
    (hpre : (m0.DecodeFrom pre).outcome = Outcome.pending) :
    m0.DecodeFrom (pre ++ { bytes := bytes, err := some e } :: rest) =
      { mail := (m0.DecodeFrom pre).mail, outcome := Outcome.returned (some e), rest := rest } := by
  obtain ⟨data1, h1⟩ := DecodeFromLoop_pending_append pre m0 [] hpre
  rw [Mail.DecodeFrom, h1, DecodeFromLoop_error]
  rfl

/-- Witness for C12: two short reads, then a read that fails with error 3. -/
theorem C12_DecodeFrom_returns_read_error_witness :
    Mail.zero.DecodeFrom
        ([ReadResult.chunk [0x01, 0x02], ReadResult.chunk [0, 0, 0]]
          ++ { bytes := [9, 9], err := some { code := 3 } } :: [ReadResult.chunk [7]]) =
      { mail := (Mail.zero.DecodeFrom
          [ReadResult.chunk [0x01, 0x02], ReadResult.chunk [0, 0, 0]]).mail,
        outcome := Outcome.returned (some { code := 3 }), rest := [ReadResult.chunk [7]] } :=
  C12_DecodeFrom_returns_read_error Mail.zero
    [ReadResult.chunk [0x01, 0x02], ReadResult.chunk [0, 0, 0]] [ReadResult.chunk [7]] [9, 9]
    { code := 3 } (by decide)

/-! ## Trailing bytes and `Decode` -/

/-- The slice `[9:size]` of an encoding followed by trailing bytes is the same slice of
the encoding alone, as long as `size` does not exceed the length of the encoding. -/
theorem slice_append_of_le (E t : List Byte) (lo hi : Nat) (h : hi ≤ E.length) :
    slice (E ++ t) lo hi = slice E lo hi := by
  simp only [slice, List.length_append]
  by_cases hc : lo ≤ hi
  · rw [if_pos ⟨hc, by omega⟩, if_pos ⟨hc, h⟩, List.take_append_of_le_length h]
  · rw [if_neg (fun hh => hc hh.1), if_neg (fun hh => hc hh.1)]

/-- A slice of a list that starts at 9, cut out of `typ ::` eight bytes `++ data`, is a
piece of `data` read from its start. -/
theorem slice_payload_prefix (m : Mail) (hi : Nat) (d : List Byte)
    (h : slice m.Encode 9 hi = some d) : d <+: m.data := by
  simp only [slice] at h
  split at h
  · simp only [Option.some.injEq] at h
    subst h
    rw [Encode_eq]
    have h9 : (m.typ :: (PutUint64 m.size ++ m.data)) = (m.typ :: PutUint64 m.size) ++ m.data := rfl
    have hl : (m.typ :: PutUint64 m.size).length = 9 := rfl
    rw [h9, List.drop_take, List.drop_left' hl]
    exact List.take_prefix _ _
  · cases h

/-- C13. Trailing bytes do not influence `Decode`: for every mail `f = New(typ, data)`
and every byte sequence `t`, `Decode` on the encoding of `f` followed by `t` ends as
`Decode` on the encoding alone does (same type, size and data, or the same panic); and
the data it leaves is either the data the mail had before the call or bytes of the
payload of `f` read from its start, so no byte at offset `9 + len(data)` or beyond is in
it. -/
theorem C13_Decode_ignores_trailing_bytes (m0 : Mail) (typ : MailType) (data t : List Byte) :
    m0.Decode ((New typ data).Encode ++ t) = m0.Decode (New typ data).Encode ∧
    ((m0.Decode ((New typ data).Encode ++ t)).mail.data = m0.data ∨
      (m0.Decode ((New typ data).Encode ++ t)).mail.data <+: data) := by
  have hsz : (New typ data).size % 2 ^ 64 ≤ (New typ data).Encode.length := by
    rw [Encode_length]
    have h1 : (New typ data).size % 2 ^ 64 ≤ data.length :=
      le_trans (Nat.mod_le _ _) (toUint64_le _)
    have h2 : (New typ data).data.length = data.length := rfl
    omega
  have hE := Decode_Encode_append m0 (New typ data) []
  rw [List.append_nil] at hE
  have ht := Decode_Encode_append m0 (New typ data) t
  rw [slice_append_of_le _ t 9 _ hsz] at ht
  refine ⟨ht.trans hE.symm, ?_⟩
  rw [ht]
  cases hs : slice (New typ data).Encode 9 ((New typ data).size % 2 ^ 64) with
  | none => left; rfl
  | some d => right; exact slice_payload_prefix (New typ data) _ d hs

/-! ## Container detection: the claims -/

/-- The function `Contains` decides whether `substr` is a contiguous part of `s`. -/
theorem Contains_iff_infix (substr : List Byte) :
    ∀ s : List Byte, Contains s substr = true ↔ substr <:+: s := by
  intro s
  induction s with
  | nil =>
    rw [Contains, List.infix_nil, List.isEmpty_iff]
  | cons b t ih =>
    rw [Contains, Bool.or_eq_true, List.isPrefixOf_iff_prefix, ih, List.infix_cons_iff]

/-- C14, counterexample. An environment whose only entry is `FOO=POD_NAME` defines none
of the three variables, yet `ProcessIsContainer` returns true: the name is found in the
value. -/
theorem C14_marker_in_value_counts :
    ProcessIsContainer 7 (some (ascii "FOO=POD_NAME" ++ [0])) = (true, none) ∧
    ¬ ∃ entry ∈ Split (ascii "FOO=POD_NAME" ++ [0]) 0, ∃ name ∈ containerMarkers,
        (name ++ ascii "=") <+: entry := by
  constructor <;> decide

/-- C14, amended. When the `environ` file is readable, `ProcessIsContainer` returns a
nil error, and returns true exactly when some NUL-separated entry contains one of
`KUBERNETES_SERVICE_HOST`, `POD_NAME`, `HYPERION_ENABLED` as a substring, anywhere in the
entry; in particular it returns true when an entry defines a variable of one of these
names, and false when no entry contains any of them. -/
theorem C14_ProcessIsContainer_substring (pid : Int) (environ : List Byte) :
    (ProcessIsContainer pid (some environ)).2 = none ∧
    ((ProcessIsContainer pid (some environ)).1 = true ↔
      ∃ entry ∈ Split environ 0, ∃ name ∈ containerMarkers, name <:+: entry) ∧
    (∀ entry ∈ Split environ 0, ∀ name ∈ containerMarkers, ∀ value : List Byte,
      entry = name ++ ascii "=" ++ value → (ProcessIsContainer pid (some environ)).1 = true) := by
  have hany : (Split environ 0).any (fun env =>
        Contains env (ascii "KUBERNETES_SERVICE_HOST") ||
        Contains env (ascii "POD_NAME") ||
        Contains env (ascii "HYPERION_ENABLED")) = true ↔
      ∃ entry ∈ Split environ 0, ∃ name ∈ containerMarkers, name <:+: entry := by
    rw [List.any_eq_true]
    constructor
    · rintro ⟨entry, hmem, h⟩
      refine ⟨entry, hmem, ?_⟩
      simp only [Bool.or_eq_true, Contains_iff_infix] at h
      rcases h with (h | h) | h
      · exact ⟨_, by simp [containerMarkers], h⟩
      · exact ⟨_, by simp [containerMarkers], h⟩
      · exact ⟨_, by simp [containerMarkers], h⟩
    · rintro ⟨entry, hmem, name, hname, h⟩
      refine ⟨entry, hmem, ?_⟩
      simp only [Bool.or_eq_true, Contains_iff_infix]
      simp only [containerMarkers, List.mem_cons, List.mem_singleton, List.not_mem_nil,
        or_false] at hname
      rcases hname with h1 | h1 | h1
      · subst h1; exact Or.inl (Or.inl h)
      · subst h1; exact Or.inl (Or.inr h)
      · subst h1; exact Or.inr h
  have hiff : (ProcessIsContainer pid (some environ)).1 = true ↔
      ∃ entry ∈ Split environ 0, ∃ name ∈ containerMarkers, name <:+: entry := by
    rw [← hany]
    simp only [ProcessIsContainer]
    split <;> simp_all
  refine ⟨?_, hiff, ?_⟩
  · simp only [ProcessIsContainer]
    split <;> rfl
  · intro entry hmem name hname value hentry
    refine hiff.mpr ⟨entry, hmem, name, hname, ?_⟩
    rw [hentry]
    exact ⟨[], ascii "=" ++ value, by simp⟩

/-- The last element of a list with at least two elements is the last of its tail. -/
theorem getD_last_cons (first : List Byte) (more : List (List Byte)) (hne : more ≠ []) :
    (first :: more).getD ((first :: more).length - 1) [] = more.getD (more.length - 1) [] := by
  cases more with
  | nil => exact absurd rfl hne
  | cons x xs => simp

/-- The last piece returned by `Split`: it has no separator in it, and it is either the
whole string (which then has no separator) or what follows the last separator. -/
theorem Split_last (sep : Byte) :
    ∀ s : List Byte, ∃ seg : List Byte,
      (Split s sep).getD ((Split s sep).length - 1) [] = seg ∧ sep ∉ seg ∧
      ((Split s sep = [seg] ∧ s = seg) ∨
        (∃ before first more, Split s sep = first :: more ∧ more ≠ [] ∧
          s = before ++ sep :: seg)) := by
  intro s
  induction s with
  | nil => exact ⟨[], rfl, List.not_mem_nil _, Or.inl ⟨rfl, rfl⟩⟩
  | cons b t ih =>
    obtain ⟨seg, hlast, hsep, hcase⟩ := ih
    by_cases hb : b = sep
    · have hS : Split (b :: t) sep = [] :: Split t sep := by
        rw [Split, if_pos hb]
      have hne : Split t sep ≠ [] := by
        rcases hcase with ⟨h, _⟩ | ⟨_, first, more, h, _, _⟩ <;> rw [h] <;> simp
      refine ⟨seg, ?_, hsep, Or.inr ?_⟩
      · rw [hS, getD_last_cons _ _ hne, hlast]
      · rcases hcase with ⟨_, h⟩ | ⟨before, _, _, _, _, h⟩
        · exact ⟨[], [], Split t sep, hS, hne, by rw [hb, h]; rfl⟩
        · exact ⟨b :: before, [], Split t sep, hS, hne, by rw [h]; rfl⟩
    · rcases hcase with ⟨hone, ht⟩ | ⟨before, first, more, hsplit, hmore, ht⟩
      · have hS : Split (b :: t) sep = [b :: seg] := by
          rw [Split, if_neg hb, hone]
        refine ⟨b :: seg, by rw [hS]; rfl, ?_, Or.inl ⟨hS, by rw [ht]⟩⟩
        intro hmem
        rcases List.mem_cons.mp hmem with h | h
        · exact hb h.symm
        · exact hsep h
      · have hS : Split (b :: t) sep = (b :: first) :: more := by
          rw [Split, if_neg hb, hsplit]
        refine ⟨seg, ?_, hsep, Or.inr ⟨b :: before, b :: first, more, hS, hmore, by rw [ht]; rfl⟩⟩
        rw [hS, getD_last_cons _ _ hmore, ← hlast, hsplit, getD_last_cons _ _ hmore]

/-- What `Trim` removes and what it leaves: the string is the result between two runs of
bytes of the cutset, and the result neither starts nor ends with a byte of the cutset. -/
theorem Trim_spec (s cutset : List Byte) :
    ∃ l r : List Byte, s = l ++ Trim s cutset ++ r ∧
      (∀ b ∈ l, b ∈ cutset) ∧ (∀ b ∈ r, b ∈ cutset) ∧
      (∀ b, (Trim s cutset).head? = some b → b ∉ cutset) ∧
      (∀ b, (Trim s cutset).getLast? = some b → b ∉ cutset) := by
  let p : Byte → Bool := fun b => cutset.contains b
  have hp : ∀ b, p b = true ↔ b ∈ cutset := fun b => by simp [p]
  let u := s.dropWhile p
  have hs : s = s.takeWhile p ++ u := (List.takeWhile_append_dropWhile p s).symm
  have hu : u = (u.reverse.dropWhile p).reverse ++ (u.reverse.takeWhile p).reverse := by
    rw [← List.reverse_append, List.takeWhile_append_dropWhile, List.reverse_reverse]
  have hT : Trim s cutset = (u.reverse.dropWhile p).reverse := rfl
  refine ⟨s.takeWhile p, (u.reverse.takeWhile p).reverse, ?_, ?_, ?_, ?_, ?_⟩
  · rw [hT, List.append_assoc, ← hu]; exact hs
  · intro b hb; exact (hp b).mp (List.mem_takeWhile_imp hb)
  · intro b hb; exact (hp b).mp (List.mem_takeWhile_imp (List.mem_reverse.mp hb))
  · intro b hb hmem
    have hTne : Trim s cutset ≠ [] := by intro h; rw [h] at hb; cases hb
    have hhead : u.head? = some b := by
      rw [hu, ← hT]
      cases hT1 : Trim s cutset with
      | nil => exact absurd hT1 hTne
      | cons x xs => rw [hT1] at hb; simpa using hb
    have := List.head?_dropWhile_not p s
    rw [show s.dropWhile p = u from rfl, hhead] at this
    simp only [Option.all_some] at this
    rw [(hp b).mpr hmem] at this
    cases this
  · intro b hb hmem
    rw [hT, List.getLast?_reverse] at hb
    have := List.head?_dropWhile_not p u.reverse
    rw [hb] at this
    simp only [Option.all_some] at this
    rw [(hp b).mpr hmem] at this
    cases this

/-- When `ProcessIsContainer` answers true it returns a nil error. -/
theorem ProcessIsContainer_true_no_error (pid : Int) (environ : Option (List Byte))
    (h : (ProcessIsContainer pid environ).1 = true) : (ProcessIsContainer pid environ).2 = none := by
  cases environ with
  | none => simp [ProcessIsContainer] at h
  | some env =>
    simp only [ProcessIsContainer] at h ⊢
    split <;> rfl

/-- C15. `GetContainerID` as a function of the two files.  When `ProcessIsContainer` is
false the result is `("", false, err)` with the error of `ProcessIsContainer` (nil when
the `environ` file was read).  When it is true and the `cgroup` file is readable the
result is `(id, true, nil)`, where `id` is the text `seg` after the last `/` of the
contents (the whole contents if there is no `/`) with leading and trailing spaces and
newlines removed; `id` contains no `/`.  The "failed to get container id" error is never
returned. -/
theorem C15_GetContainerID (pid : Int) (environ : Option (List Byte)) (cgroup : List Byte) :
    ((ProcessIsContainer pid environ).1 = false →
      ∀ cg : Option (List Byte),
        GetContainerID pid environ cg = ([], false, (ProcessIsContainer pid environ).2)) ∧
    ((ProcessIsContainer pid environ).1 = true →
      ∃ seg id l r : List Byte,
        GetContainerID pid environ (some cgroup) = (id, true, none) ∧
        toByte 47 ∉ seg ∧
        ((toByte 47 ∉ cgroup ∧ cgroup = seg) ∨ ∃ before, cgroup = before ++ toByte 47 :: seg) ∧
        seg = l ++ id ++ r ∧
        (∀ b ∈ l, b ∈ ascii " \n") ∧ (∀ b ∈ r, b ∈ ascii " \n") ∧
        (∀ b, id.head? = some b → b ∉ ascii " \n") ∧
        (∀ b, id.getLast? = some b → b ∉ ascii " \n") ∧
        toByte 47 ∉ id) ∧
    (∀ cg : Option (List Byte),
      (GetContainerID pid environ cg).2.2 ≠ some (ContainerError.noContainerID pid)) := by
  have hlen : ∀ c : List Byte, ¬ (Split c (toByte 47)).length = 0 := by
    intro c h
    obtain ⟨seg, _, _, hcase⟩ := Split_last (toByte 47) c
    rcases hcase with ⟨h1, _⟩ | ⟨_, _, _, h1, _, _⟩ <;> rw [h1] at h <;> simp at h
  have hperr : ∀ e, (ProcessIsContainer pid environ).2 = some e →
      e ≠ ContainerError.noContainerID pid := by
    intro e he
    cases environ with
    | none => simp only [ProcessIsContainer, Option.some.injEq] at he; rw [← he]; simp
    | some env =>
      simp only [ProcessIsContainer] at he
      split at he <;> cases he
  refine ⟨?_, ?_, ?_⟩
  · intro hfalse cg
    simp only [GetContainerID, hfalse, Bool.not_false, Bool.or_true, if_true]
  · intro htrue
    have herr := ProcessIsContainer_true_no_error pid environ htrue
    obtain ⟨seg, hlast, hsep, hcase⟩ := Split_last (toByte 47) cgroup
    obtain ⟨l, r, hseg, hl, hr, hhead, hlst⟩ := Trim_spec seg (ascii " \n")
    refine ⟨seg, Trim seg (ascii " \n"), l, r, ?_, hsep, ?_, hseg, hl, hr, hhead, hlst, ?_⟩
    · simp only [GetContainerID, htrue, herr, Option.isSome_none, Bool.not_true, Bool.or_false,
        if_neg (hlen cgroup), hlast]
      rfl
    · rcases hcase with ⟨_, h⟩ | ⟨before, _, _, _, _, h⟩
      · exact Or.inl ⟨by rw [h]; exact hsep, h⟩
      · exact Or.inr ⟨before, h⟩
    · intro hmem
      apply hsep
      rw [hseg]
      exact List.mem_append_left _ (List.mem_append_right _ hmem)
  · intro cg
    by_cases hok : (ProcessIsContainer pid environ).1 = true
    · have herr := ProcessIsContainer_true_no_error pid environ hok
      cases cg with
      | none =>
        simp [GetContainerID, hok, herr]
      | some c =>
        simp only [GetContainerID, hok, herr, Option.isSome_none, Bool.not_true, Bool.or_false,
          if_neg (hlen c)]
        simp
    · have hfalse : (ProcessIsContainer pid environ).1 = false := by
        simpa using hok
      simp only [GetContainerID, hfalse, Bool.not_false, Bool.or_true, if_true]
      intro h
      exact hperr _ h rfl

/-! ## Completion test, accessors and unique parsing -/

/-- C16, defect in the code. Completion is decided on the size of the last read, not on
the accumulated bytes.  The 19-byte frame of a ten-byte payload arrives as ten bytes and
then nine: after the second read all 19 bytes are buffered, yet the call asks for a third
read (it is pending), and when that read reports the end of the stream with error 1 the
call returns this error with no payload stored.  Delivered as four bytes and then seven,
the 11-byte frame of `"hi"` leaves even the size unparsed. -/
theorem C16_completion_tested_on_last_read :
    Mail.zero.DecodeFrom
        [ReadResult.chunk ((New DATA [0, 1, 2, 3, 4, 5, 6, 7, 8, 9]).Encode.take 10),
         ReadResult.chunk ((New DATA [0, 1, 2, 3, 4, 5, 6, 7, 8, 9]).Encode.drop 10)] =
      { mail := { typ := DATA, size := 10, data := [] }, outcome := Outcome.pending,
        rest := [] } ∧
    Mail.zero.DecodeFrom
        [ReadResult.chunk ((New DATA [0, 1, 2, 3, 4, 5, 6, 7, 8, 9]).Encode.take 10),
         ReadResult.chunk ((New DATA [0, 1, 2, 3, 4, 5, 6, 7, 8, 9]).Encode.drop 10),
         { bytes := [], err := some { code := 1 } }] =
      { mail := { typ := DATA, size := 10, data := [] },
        outcome := Outcome.returned (some { code := 1 }), rest := [] } ∧
    Mail.zero.DecodeFrom
        [ReadResult.chunk ((New LOG [0x68, 0x69]).Encode.take 4),
         ReadResult.chunk ((New LOG [0x68, 0x69]).Encode.drop 4)] =
      { mail := { typ := LOG, size := 0, data := [] }, outcome := Outcome.pending,
        rest := [] } := by
  refine ⟨by decide, by decide, by decide⟩

/-- C17, defect in the code. `GetSize` returns the type field, for every mail; for
`New(LOG, "hi")` it returns 0 while the size is 2, and for `New(DATA, "")` it returns 1
while the size is 0. -/
theorem C17_GetSize_returns_type :
    (∀ (typ : MailType) (data : List Byte), (New typ data).GetSize = typ) ∧
    (New LOG [0x68, 0x69]).GetSize = 0 ∧ (New LOG [0x68, 0x69]).size = 2 ∧
    (New DATA []).GetSize = 1 ∧ (New DATA []).size = 0 := by
  refine ⟨fun _ _ => rfl, by decide, by decide, by decide, by decide⟩

/-- The eight bytes written for a value depend on the value modulo `2 ^ 64` only. -/
theorem PutUint64_mod (v : Nat) : PutUint64 (v % 2 ^ 64) = PutUint64 v := by
  simp only [PutUint64, toByte, List.cons.injEq, Fin.mk.injEq, and_true]
  refine ⟨?_, ?_, ?_, ?_, ?_, ?_, ?_, ?_⟩ <;> omega

/-- C18. `SetData` updates the size together with the data and nothing else: for every
mail `m` (also one whose size and data disagree) and every byte slice `d`, after
`m.SetData(d)` the type is unchanged, `GetData()` is `d`, and `Encode()` is the type
byte, then `len(d)` as eight little-endian bytes (byte `1 + i` is the `i`-th base-256
digit of `len(d)`), then `d`. -/
theorem C18_SetData_frame (m : Mail) (d : List Byte) :
    (m.SetData d).GetType = m.GetType ∧
    (m.SetData d).GetData = d ∧
    (m.SetData d).Encode = m.typ :: (PutUint64 d.length ++ d) ∧
    (∀ i, i < 8 → (m.SetData d).Encode[1 + i]? = some (toByte (d.length / 256 ^ i))) ∧
    (m.SetData d).Encode.drop 9 = d := by
  have henc : (m.SetData d).Encode = m.typ :: (PutUint64 d.length ++ d) := by
    rw [Encode_eq]
    simp only [Mail.SetData, toUint64, PutUint64_mod]
  refine ⟨rfl, rfl, henc, ?_, ?_⟩
  · intro i hi
    rw [henc]
    interval_cases i <;> simp [PutUint64]
  · rw [henc]
    simp [PutUint64]

/-- An encoding followed by any bytes determines the type, the size (as a `uint64`), the
data and the bytes that follow, as long as the size field is the length of the data. -/
theorem Encode_append_inj (m1 m2 : Mail) (r1 r2 : List Byte)
    (h1 : m1.size = m1.data.length) (h2 : m2.size = m2.data.length)
    (hl1 : m1.data.length < 2 ^ 64) (hl2 : m2.data.length < 2 ^ 64)
    (h : m1.Encode ++ r1 = m2.Encode ++ r2) :
    m1.typ = m2.typ ∧ m1.data = m2.data ∧ r1 = r2 := by
  rw [Encode_eq, Encode_eq, List.cons_append, List.cons_append, List.append_assoc,
    List.append_assoc] at h
  obtain ⟨ht, hrest⟩ := List.cons.inj h
  have hput := List.append_inj hrest (by rw [PutUint64_length, PutUint64_length])
  have hsz : m1.size % 2 ^ 64 = m2.size % 2 ^ 64 := by
    rw [← Uint64_PutUint64, ← Uint64_PutUint64, hput.1]
  have hlen : m1.data.length = m2.data.length := by
    rw [h1, h2, Nat.mod_eq_of_lt hl1, Nat.mod_eq_of_lt hl2] at hsz
    exact hsz
  have hd := List.append_inj hput.2 hlen
  exact ⟨ht, hd.1, hd.2⟩

/-- C19. Encodings are uniquely parseable: for mails `New(t1, d1)` and `New(t2, d2)` with
payloads shorter than `2 ^ 64` bytes, if the encoding of the first followed by bytes `r1`
equals the encoding of the second followed by bytes `r2`, then `t1 = t2`, `d1 = d2` and
`r1 = r2`; in particular equal encodings come from equal type and data, and an encoding
that is a prefix of another is equal to it. -/
theorem C19_encodings_uniquely_parseable (t1 t2 : MailType) (d1 d2 : List Byte)
    (hl1 : d1.length < 2 ^ 64) (hl2 : d2.length < 2 ^ 64) :
    (∀ r1 r2 : List Byte, (New t1 d1).Encode ++ r1 = (New t2 d2).Encode ++ r2 →
      t1 = t2 ∧ d1 = d2 ∧ r1 = r2) ∧
    ((New t1 d1).Encode = (New t2 d2).Encode → t1 = t2 ∧ d1 = d2) ∧
    ((New t1 d1).Encode <+: (New t2 d2).Encode → (New t1 d1).Encode = (New t2 d2).Encode) := by
  have key : ∀ r1 r2 : List Byte, (New t1 d1).Encode ++ r1 = (New t2 d2).Encode ++ r2 →
      t1 = t2 ∧ d1 = d2 ∧ r1 = r2 := fun r1 r2 h =>
    Encode_append_inj (New t1 d1) (New t2 d2) r1 r2 (toUint64_of_lt hl1) (toUint64_of_lt hl2)
      hl1 hl2 h
  refine ⟨key, ?_, ?_⟩
  · intro h
    have := key [] [] (by rw [List.append_nil, List.append_nil]; exact h)
    exact ⟨this.1, this.2.1⟩
  · rintro ⟨r, hr⟩
    have := key r [] (by rw [List.append_nil]; exact hr)
    rw [← hr, this.2.2, List.append_nil]

/-- Witness for C19: the frame of `"hi"`, built twice, has one type and one payload. -/
theorem C19_encodings_uniquely_parseable_witness :
    LOG = LOG ∧ ([0x68, 0x69] : List Byte) = [0x68, 0x69] :=
  (C19_encodings_uniquely_parseable LOG LOG [0x68, 0x69] [0x68, 0x69]
    (by decide) (by decide)).2.1 (by decide)

/-! ## Payloads beyond the read buffer -/

/-- C20, counterexample. A nine-byte header that declares `L = 2 ^ 63 - 1`, delivered by
one read: `int(size) + 1 + 8` wraps to a negative number, the completion test passes,
and the payload-store step is executed; its slice panics, so the call ends at a read
that returned neither an error nor zero bytes. -/
theorem C20_wrapped_size_reaches_store_step :
    Uint64 ((([0, 0xff, 0xff, 0xff, 0xff, 0xff, 0xff, 0xff, 0x7f] : List Byte).take 9).drop 1)
      = 2 ^ 63 - 1 ∧
    Mail.zero.DecodeFrom [ReadResult.chunk [0, 0xff, 0xff, 0xff, 0xff, 0xff, 0xff, 0xff, 0x7f]] =
      { mail := { typ := 0, size := 2 ^ 63 - 1, data := [] },
        outcome := Outcome.panicked Panic.sliceBoundsOutOfRange, rest := [] } := by
  constructor <;> decide

/-- C20, amended. `DecodeFrom` cannot complete a frame whose payload exceeds 119 bytes:
for every byte stream `S` whose bytes 1..8 declare a size `L` with
`120 ≤ L < 2 ^ 63 - 9`, and every cutting of a beginning of `S` into non-empty reads of
at most 128 bytes, the call is still running after those reads with the data of the mail
unchanged; it then returns `nil` at a zero-length read, or the error of a read that
fails, and in no other way. -/
theorem C20_large_payload_never_stored (m0 : Mail) (S : List Byte) (L : Nat)
    (cs : List (List Byte))
    (hL : Uint64 ((S.take 9).drop 1) = L) (hlo : 120 ≤ L) (hhi : L < 2 ^ 63 - 9)
    (hcs : ∀ c ∈ cs, c ≠ [] ∧ c.length ≤ 128) (hp : cs.flatten <+: S) :
    ∃ m1 : Mail, m1.data = m0.data ∧
      m0.DecodeFrom (cs.map ReadResult.chunk) =
        { mail := m1, outcome := Outcome.pending, rest := [] } ∧
      (∀ rest : List ReadResult,
        m0.DecodeFrom (cs.map ReadResult.chunk ++ ReadResult.chunk [] :: rest) =
          { mail := m1, outcome := Outcome.returned none, rest := rest }) ∧
      (∀ (bytes : List Byte) (e : StreamError) (rest : List ReadResult),
        m0.DecodeFrom (cs.map ReadResult.chunk ++ { bytes := bytes, err := some e } :: rest) =
          { mail := m1, outcome := Outcome.returned (some e), rest := rest }) := by
  have hcs1 : ∀ c ∈ cs, c ≠ [] ∧ c.length ≤ 128 ∧ c.length < 9 + L := by
    intro c hc
    exact ⟨(hcs c hc).1, (hcs c hc).2, by have := (hcs c hc).2; omega⟩
  obtain ⟨m1, hrun, hdata, _, _⟩ :=
    DecodeFromLoop_incomplete S L hL hhi cs m0 [] [] hcs1 (by rw [List.nil_append]; exact hp)
  rw [List.append_nil] at hrun
  have hpend : m0.DecodeFrom (cs.map ReadResult.chunk) =
      { mail := m1, outcome := Outcome.pending, rest := [] } := by
    rw [Mail.DecodeFrom, hrun]; rfl
  have hout : (DecodeFromLoop m0 [] (cs.map ReadResult.chunk)).outcome = Outcome.pending := by
    have := congrArg DecodeFromRun.outcome hpend
    exact this
  have hmail : (DecodeFromLoop m0 [] (cs.map ReadResult.chunk)).mail = m1 :=
    congrArg DecodeFromRun.mail hpend
  obtain ⟨data1, hext⟩ := DecodeFromLoop_pending_append (cs.map ReadResult.chunk) m0 [] hout
  refine ⟨m1, hdata, hpend, ?_, ?_⟩
  · intro rest
    rw [Mail.DecodeFrom, hext, hmail, DecodeFromLoop_zero_read]
  · intro bytes e rest
    rw [Mail.DecodeFrom, hext, hmail, DecodeFromLoop_error]

/-- Witness for C20: a header that declares 120 payload bytes, cut inside the header. -/
theorem C20_large_payload_never_stored_witness :
    ∃ m1 : Mail, m1.data = Mail.zero.data ∧
      Mail.zero.DecodeFrom
          ([[0, 120, 0, 0], [0, 0, 0, 0, 0, 1]].map ReadResult.chunk) =
        { mail := m1, outcome := Outcome.pending, rest := [] } ∧
      (∀ rest : List ReadResult,
        Mail.zero.DecodeFrom
            ([[0, 120, 0, 0], [0, 0, 0, 0, 0, 1]].map ReadResult.chunk
              ++ ReadResult.chunk [] :: rest) =
          { mail := m1, outcome := Outcome.returned none, rest := rest }) ∧
      (∀ (bytes : List Byte) (e : StreamError) (rest : List ReadResult),
        Mail.zero.DecodeFrom
            ([[0, 120, 0, 0], [0, 0, 0, 0, 0, 1]].map ReadResult.chunk
              ++ { bytes := bytes, err := some e } :: rest) =
          { mail := m1, outcome := Outcome.returned (some e), rest := rest }) :=
  C20_large_payload_never_stored Mail.zero [0, 120, 0, 0, 0, 0, 0, 0, 0, 1, 2, 3] 120
    [[0, 120, 0, 0], [0, 0, 0, 0, 0, 1]] (by decide) (by decide) (by decide) (by decide)
    ⟨[2, 3], by decide⟩

end Hyperion
